import Mathlib

/-!
Verification development for a 10-card stud game engine.

The development shallowly embeds the poker hand evaluator (`evaluateHand`,
`findBestHand`) and the round state machine (`initializeGame`,
`startRevealRound`, `revealSelectedCard`, `processRevealRound`,
`determineWinner`, `runFullGame`) of the repository.  Fallible code
(JavaScript `throw`, out-of-bounds array reads on `undefined`) is embedded
with `Option`: `none` models the error path.  JavaScript numbers are
embedded as `Nat` (all quantities involved are non-negative integers below
2^53, where float64 arithmetic is exact).  `Array.prototype.sort` with a
comparator that is a strict total order on the inputs returns the unique
sorted permutation, so it is embedded with `List.insertionSort`.
-/

namespace TenCardStud

/-- A card suit: the four symbols. -/
inductive Suit
  | spades
  | hearts
  | diamonds
  | clubs
deriving DecidableEq, Repr

/-- A card: unique string id, suit, and rank 2..14 (14 is the ace). -/
structure Card where
  id : String
  suit : Suit
  rank : Nat
deriving DecidableEq, Repr

/-- The nine hand categories of `HandRank` in the source. -/
inductive HandRank
  | straightFlush
  | fourOfAKind
  | fullHouse
  | flush
  | straight
  | threeOfAKind
  | twoPair
  | onePair
  | highCard
deriving DecidableEq, Repr

/-- HAND_RANK_VALUES from the source. -/
def HAND_RANK_VALUES : HandRank → Nat
  | .straightFlush => 8
  | .fourOfAKind => 7
  | .fullHouse => 6
  | .flush => 5
  | .straight => 4
  | .threeOfAKind => 3
  | .twoPair => 2
  | .onePair => 1
  | .highCard => 0

/-- HandResult from the source. -/
structure HandResult where
  rank : HandRank
  cards : List Card
  kickers : List Nat
  strength : Nat
deriving DecidableEq, Repr

/-- The kicker loop of calculateStrength: position i contributes
kickers[i] * 15 ^ (4 - i), for i < 5. -/
def kickerScore : List Nat → Nat → Nat
  | [], _ => 0
  | k :: rest, i => if i < 5 then k * 15 ^ (4 - i) + kickerScore rest (i + 1) else 0

/-- calculateStrength from the source. -/
def calculateStrength (handRank : HandRank) (kickers : List Nat) : Nat :=
  HAND_RANK_VALUES handRank * 10000000000 + kickerScore kickers 0

/-- One step of getRankCounts: `counts.set(rank, (counts.get(rank) || 0) + 1)`
on a JavaScript Map, which keeps insertion order and updates in place. -/
def insertCount (acc : List (Nat × Nat)) (c : Card) : List (Nat × Nat) :=
  if acc.any (fun p => p.1 = c.rank) then
    acc.map (fun p => if p.1 = c.rank then (p.1, p.2 + 1) else p)
  else
    acc ++ [(c.rank, 1)]

/-- getRankCounts from the source, as the insertion-ordered (rank, count)
association list of the JavaScript Map. -/
def getRankCounts (cards : List Card) : List (Nat × Nat) :=
  cards.foldl insertCount []

/-- The comparator of evaluateHand's sort over the rank-count entries:
count descending, then rank descending. -/
def countRel (a b : Nat × Nat) : Prop :=
  b.2 < a.2 ∨ (a.2 = b.2 ∧ b.1 ≤ a.1)

instance : DecidableRel countRel := fun a b =>
  inferInstanceAs (Decidable (b.2 < a.2 ∨ (a.2 = b.2 ∧ b.1 ≤ a.1)))

instance : IsTotal (Nat × Nat) countRel :=
  ⟨fun a b => by
    by_cases h : a.2 = b.2
    · rcases Nat.le_total b.1 a.1 with h1 | h1
      · exact Or.inl (Or.inr ⟨h, h1⟩)
      · exact Or.inr (Or.inr ⟨h.symm, h1⟩)
    · rcases Nat.lt_or_ge b.2 a.2 with h2 | h2
      · exact Or.inl (Or.inl h2)
      · exact Or.inr (Or.inl (lt_of_le_of_ne h2 h))⟩

instance : IsTrans (Nat × Nat) countRel :=
  ⟨fun a b c hab hbc => by
    rcases hab with h1 | ⟨h1, h1'⟩ <;> rcases hbc with h2 | ⟨h2, h2'⟩
    · exact Or.inl (h2.trans h1)
    · exact Or.inl (h2 ▸ h1)
    · exact Or.inl (h1 ▸ h2)
    · exact Or.inr ⟨h1.trans h2, h2'.trans h1'⟩⟩

instance : IsAntisymm (Nat × Nat) countRel :=
  ⟨fun a b hab hba => by
    rcases hab with h1 | ⟨h1, h1'⟩ <;> rcases hba with h2 | ⟨h2, h2'⟩
    · exact absurd (h1.trans h2) (lt_irrefl _)
    · exact absurd h1 (h2 ▸ lt_irrefl _)
    · exact absurd h2 (h1 ▸ lt_irrefl _)
    · exact Prod.ext (le_antisymm h2' h1') h1⟩

/-- The sorted rank-count groups `counts` of evaluateHand. -/
def sortedRankCounts (cards : List Card) : List (Nat × Nat) :=
  List.insertionSort countRel (getRankCounts cards)

/-- Ascending rank sort, `sort((a, b) => a - b)` in the source. -/
def sortRanksAsc (ranks : List Nat) : List Nat :=
  List.insertionSort (· ≤ ·) ranks

/-- Descending rank sort, `sort((a, b) => b - a)` in the source. -/
def sortRanksDesc (ranks : List Nat) : List Nat :=
  List.insertionSort (· ≥ ·) ranks

/-- isFlush from the source; reading `cards[0]` of an empty array fails. -/
def isFlush (cards : List Card) : Option Bool := do
  let c0 ← cards[0]?
  pure (cards.all (fun c => c.suit = c0.suit))

/-- isStraight from the source.  The wheel A-2-3-4-5 is a 5-high straight;
otherwise five consecutive ranks with `ranks[4]` high.  The source is only
called on 5-card arrays (evaluateHand checks the length first); the five
index reads are embedded with `Option`. -/
def isStraight (cards : List Card) : Option (Bool × Nat) := do
  let ranks := sortRanksAsc (cards.map Card.rank)
  let a0 ← ranks[0]?
  let a1 ← ranks[1]?
  let a2 ← ranks[2]?
  let a3 ← ranks[3]?
  let a4 ← ranks[4]?
  if a0 = 2 ∧ a1 = 3 ∧ a2 = 4 ∧ a3 = 5 ∧ a4 = 14 then
    pure (true, 5)
  else if a1 = a0 + 1 ∧ a2 = a1 + 1 ∧ a3 = a2 + 1 ∧ a4 = a3 + 1 then
    pure (true, a4)
  else
    pure (false, 0)

/-- Builds a HandResult the way every branch of evaluateHand does:
the strength is calculateStrength of the category and kickers. -/
def mkHand (hr : HandRank) (cards : List Card) (kickers : List Nat) : HandResult :=
  ⟨hr, cards, kickers, calculateStrength hr kickers⟩

/-- evaluateHand from the source.  5 cards exactly (else it throws, embedded
as `none`); the branch cascade follows the source order: straight-flush,
four-of-a-kind, full house, flush, straight, three-of-a-kind, two-pair,
one-pair, high-card.  Out-of-bounds reads of `counts[i]` are `none`. -/
def evaluateHand (cards : List Card) : Option HandResult :=
  if cards.length ≠ 5 then none
  else
    let counts := sortedRankCounts cards
    match isFlush cards, isStraight cards with
    | some flush, some straight =>
      if flush && straight.1 then
        some (mkHand .straightFlush cards [straight.2])
      else
        match counts[0]? with
        | none => none
        | some c0 =>
          if c0.2 = 4 then
            match counts[1]? with
            | none => none
            | some c1 => some (mkHand .fourOfAKind cards [c0.1, c1.1])
          else if c0.2 = 3 then
            match counts[1]? with
            | none => none
            | some c1 =>
              if c1.2 = 2 then
                some (mkHand .fullHouse cards [c0.1, c1.1])
              else if flush then
                some (mkHand .flush cards (sortRanksDesc (cards.map Card.rank)))
              else if straight.1 then
                some (mkHand .straight cards [straight.2])
              else
                match counts[2]? with
                | none => none
                | some c2 => some (mkHand .threeOfAKind cards [c0.1, c1.1, c2.1])
          else if flush then
            some (mkHand .flush cards (sortRanksDesc (cards.map Card.rank)))
          else if straight.1 then
            some (mkHand .straight cards [straight.2])
          else if c0.2 = 2 then
            match counts[1]? with
            | none => none
            | some c1 =>
              if c1.2 = 2 then
                match counts[2]? with
                | none => none
                | some c2 =>
                  some (mkHand .twoPair cards [max c0.1 c1.1, min c0.1 c1.1, c2.1])
              else
                match counts[2]?, counts[3]? with
                | some c2, some c3 =>
                  some (mkHand .onePair cards [c0.1, c1.1, c2.1, c3.1])
                | _, _ => none
          else
            some (mkHand .highCard cards (sortRanksDesc (cards.map Card.rank)))
    | _, _ => none

/-- The combinations backtracking of the source: all k-element
subsequences, first element chosen from the front. -/
def combinations {α : Type} : List α → Nat → List (List α)
  | _, 0 => [[]]
  | [], _ + 1 => []
  | x :: xs, k + 1 =>
      (combinations xs k).map (fun c => x :: c) ++ combinations xs (k + 1)

/-- The best-hand fold of findBestHand:
`if (!bestHand || hand.strength > bestHand.strength) bestHand = hand`. -/
def bestOf (hands : List HandResult) : Option HandResult :=
  hands.foldl
    (fun best hand =>
      match best with
      | none => some hand
      | some b => if b.strength < hand.strength then some hand else some b)
    none

/-- Sequential evaluation of a list under an Option-returning function;
the first failure aborts, like the first JavaScript throw. -/
def mapOption {α β : Type} (f : α → Option β) : List α → Option (List β)
  | [] => some []
  | x :: xs =>
    match f x, mapOption f xs with
    | some y, some ys => some (y :: ys)
    | _, _ => none

/-- findBestHand from the source: fewer than 5 cards throws; exactly 5
delegates to evaluateHand; otherwise the maximum-strength 5-card
combination (ties keep the first). -/
def findBestHand (cards : List Card) : Option HandResult :=
  if cards.length < 5 then none
  else if cards.length = 5 then evaluateHand cards
  else
    match mapOption evaluateHand (combinations cards 5) with
    | none => none
    | some hands => bestOf hands

/-! ### Round state machine (game module) -/

/-- The four game phases. -/
inductive Phase
  | dealing
  | revealing
  | showdown
  | finished
deriving DecidableEq, Repr

/-- Player from the source. -/
structure Player where
  id : Nat
  name : String
  doorCards : List Card
  holeCards : List Card
  revealedHoleCards : List Card
deriving DecidableEq, Repr

/-- RevealEvent from the source; `cards` is the list of (playerId, card)
pairs revealed that round. -/
structure RevealEvent where
  round : Nat
  playerIds : List Nat
  cards : List (Nat × Card)
deriving DecidableEq, Repr

/-- GameState from the source. -/
structure GameState where
  players : List Player
  deadCards : List Card
  phase : Phase
  currentRound : Nat
  revealHistory : List RevealEvent
  winner : Option (List Player)
  waitingForPlayers : List Nat
deriving DecidableEq, Repr

/-- The four difficulty levels. -/
inductive Difficulty
  | normal
  | hard
  | hell
  | nightmare
deriving DecidableEq, Repr

/-- DifficultyConfig from the source. -/
structure DifficultyConfig where
  name : String
  holeCards : Nat
  doorCards : Nat
  description : String
deriving DecidableEq, Repr

/-- DIFFICULTY_CONFIGS from the source. -/
def DIFFICULTY_CONFIGS : Difficulty → DifficultyConfig
  | .normal => ⟨"ノーマル", 5, 5, "隠し札5枚"⟩
  | .hard => ⟨"ハード", 4, 6, "隠し札4枚"⟩
  | .hell => ⟨"ヘル", 2, 8, "隠し札2枚"⟩
  | .nightmare => ⟨"ナイトメア", 0, 5, "隠し札なし"⟩

/-- getRevealedCards from the source: door plus already-revealed hole cards. -/
def getRevealedCards (player : Player) : List Card :=
  player.doorCards ++ player.revealedHoleCards

/-- getAllCards from the source. -/
def getAllCards (player : Player) : List Card :=
  player.doorCards ++ player.revealedHoleCards ++ player.holeCards

/-- getCurrentStrength from the source: best hand over the revealed
cards only. -/
def getCurrentStrength (player : Player) : Option HandResult :=
  findBestHand (getRevealedCards player)

/-- getFinalStrength from the source: best hand over the full card set. -/
def getFinalStrength (player : Player) : Option HandResult :=
  findBestHand (getAllCards player)

/-- Modelled from the spec: the repository's card module (`createDeck` and
`shuffleDeck` of `lib/cards`) is not under src; only its importers are.
Spec 4.1: `buildDeck()` returns the 52-card set exactly once (4 suits,
ranks 2..14), each card carrying an id unique within the game.  Ids here
are the suit initial and the rank. -/
def suitName : Suit → String
  | .spades => "s"
  | .hearts => "h"
  | .diamonds => "d"
  | .clubs => "c"

/-- The four suits in a fixed order. -/
def allSuits : List Suit := [.spades, .hearts, .diamonds, .clubs]

/-- The thirteen ranks 2..14. -/
def allRanks : List Nat := (List.range 13).map (fun i => i + 2)

/-- Modelled from the spec: the 52-card deck built by the missing card
module, see `suitName`. -/
def createDeck : List Card :=
  allSuits.flatMap (fun s => allRanks.map (fun r => ⟨suitName s ++ Nat.repr r, s, r⟩))

/-- The dealing loop of initializeGame, one seat at a time: door cards
then hole cards are consecutive slices of the shuffled deck (the running
`cardIndex` of the source is the part of the deck already consumed).
Seat 0 uses the selected difficulty, the others the normal config.
Returns the players and the remaining (dead) cards. -/
def dealSeats (deck : List Card) (names : List (Nat × String)) (difficulty : Difficulty) :
    List Player × List Card :=
  match names with
  | [] => ([], deck)
  | (i, name) :: rest =>
    let config := if i = 0 then DIFFICULTY_CONFIGS difficulty else DIFFICULTY_CONFIGS .normal
    let doorCards := deck.take config.doorCards
    let deckAfterDoor := deck.drop config.doorCards
    let holeCards := deckAfterDoor.take config.holeCards
    let deckAfterHole := deckAfterDoor.drop config.holeCards
    let restDeal := dealSeats deckAfterHole rest difficulty
    (⟨i, name, doorCards, holeCards, []⟩ :: restDeal.1, restDeal.2)

/-- initializeGame from the source.  The source deals
`shuffleDeck(createDeck())`; `shuffleDeck` lives in the missing card
module (spec 4.1: a uniformly random permutation), so the shuffled deck is
taken as the `deck` parameter and theorems quantify over permutations of
`createDeck`.  2 to 5 players, else it throws (`none`). -/
def initializeGame (playerNames : List String) (difficulty : Difficulty)
    (deck : List Card) : Option GameState :=
  if playerNames.length < 2 ∨ 5 < playerNames.length then none
  else
    let deal := dealSeats deck playerNames.enum difficulty
    some ⟨deal.1, deal.2, .revealing, 0, [], none, []⟩

/-- findWeakestPlayers from the source: among the players still holding
hole cards, all those whose current strength is minimal. -/
def findWeakestPlayers (players : List Player) : Option (List Player) :=
  let playersWithHoleCards := players.filter (fun p => 0 < p.holeCards.length)
  if playersWithHoleCards.length = 0 then some []
  else
    match mapOption (fun p => (getCurrentStrength p).map (fun s => (p, s)))
        playersWithHoleCards with
    | none => none
    | some strengths =>
      match strengths[0]? with
      | none => none
      | some s0 =>
        let minStrength := strengths.foldl
          (fun m ps => if ps.2.strength < m then ps.2.strength else m) s0.2.strength
        some ((strengths.filter (fun ps => ps.2.strength = minStrength)).map Prod.fst)

/-- startRevealRound from the source. -/
def startRevealRound (state : GameState) : Option GameState :=
  if state.phase ≠ .revealing then some state
  else
    match findWeakestPlayers state.players with
    | none => none
    | some weakestPlayers =>
      if weakestPlayers.length = 0 then
        some { state with phase := .showdown, waitingForPlayers := [] }
      else
        some { state with waitingForPlayers := weakestPlayers.map Player.id }

/-- revealSelectedCard from the source: a total function, every
ineligible call returns the state unchanged. -/
def revealSelectedCard (state : GameState) (playerId : Nat) (cardId : String) :
    GameState :=
  if state.phase ≠ .revealing then state
  else if playerId ∉ state.waitingForPlayers then state
  else
    match state.players.findIdx? (fun p => p.id = playerId) with
    | none => state
    | some playerIndex =>
      match state.players[playerIndex]? with
      | none => state
      | some player =>
        match player.holeCards.find? (fun c => c.id = cardId) with
        | none => state
        | some card =>
          let newHoleCards := player.holeCards.filter (fun c => ¬c.id = cardId)
          let newRevealedHoleCards := player.revealedHoleCards ++ [card]
          let newPlayers := state.players.set playerIndex
            { player with holeCards := newHoleCards,
                          revealedHoleCards := newRevealedHoleCards }
          let newWaitingForPlayers := state.waitingForPlayers.filter (fun i => ¬i = playerId)
          let newRevealHistory :=
            if state.revealHistory.any (fun e => e.round = state.currentRound) then
              state.revealHistory.map (fun e =>
                if e.round = state.currentRound then
                  { e with playerIds := e.playerIds ++ [playerId],
                           cards := e.cards ++ [(playerId, card)] }
                else e)
            else
              state.revealHistory ++ [⟨state.currentRound, [playerId], [(playerId, card)]⟩]
          if newWaitingForPlayers.length = 0 then
            let allRevealed := newPlayers.all (fun p => p.holeCards.length = 0)
            { state with players := newPlayers,
                         revealHistory := newRevealHistory,
                         waitingForPlayers := [],
                         currentRound := state.currentRound + 1,
                         phase := if allRevealed then .showdown else .revealing }
          else
            { state with players := newPlayers,
                         revealHistory := newRevealHistory,
                         waitingForPlayers := newWaitingForPlayers }

/-- processRevealRound from the source (auto-reveal, local mode): every
weakest player reveals its first hole card. -/
def processRevealRound (state : GameState) : Option GameState :=
  if state.phase ≠ .revealing then some state
  else
    match findWeakestPlayers state.players with
    | none => none
    | some weakestPlayers =>
      if weakestPlayers.length = 0 then
        some { state with phase := .showdown }
      else
        let newPlayers := state.players.map (fun player =>
          if weakestPlayers.any (fun wp => wp.id = player.id) then
            match player.holeCards with
            | [] => player
            | card :: rest =>
              { player with holeCards := rest,
                            revealedHoleCards := player.revealedHoleCards ++ [card] }
          else player)
        let revealedCards := state.players.filterMap (fun player =>
          if weakestPlayers.any (fun wp => wp.id = player.id) then
            player.holeCards.head?.map (fun card => (player.id, card))
          else none)
        let event : RevealEvent := ⟨state.currentRound, weakestPlayers.map Player.id, revealedCards⟩
        let allRevealed := newPlayers.all (fun p => p.holeCards.length = 0)
        some { state with players := newPlayers,
                          currentRound := state.currentRound + 1,
                          revealHistory := state.revealHistory ++ [event],
                          phase := if allRevealed then .showdown else .revealing,
                          waitingForPlayers := [] }

/-- determineWinner from the source: all players achieving the maximum
final strength; phase becomes finished. -/
def determineWinner (state : GameState) : Option GameState :=
  if state.phase ≠ .showdown then some state
  else
    match mapOption (fun p => (getFinalStrength p).map (fun s => (p, s))) state.players with
    | none => none
    | some finalStrengths =>
      match finalStrengths[0]? with
      | none => none
      | some s0 =>
        let maxStrength := finalStrengths.foldl
          (fun m ps => if m < ps.2.strength then ps.2.strength else m) s0.2.strength
        let winners := (finalStrengths.filter (fun ps => ps.2.strength = maxStrength)).map Prod.fst
        some { state with phase := .finished, winner := some winners }

/-- The total number of still-hidden hole cards. -/
def totalHoleCards (state : GameState) : Nat :=
  (state.players.map (fun p => p.holeCards.length)).sum

/-- The `while (phase === "revealing") processRevealRound` loop of
runFullGame, with explicit fuel; the C4 theorem shows
`totalHoleCards + 1` fuel always suffices, so the loop never exhausts. -/
def runRevealLoop : Nat → GameState → Option GameState
  | 0, state => if state.phase = .revealing then none else some state
  | fuel + 1, state =>
    if state.phase = .revealing then
      match processRevealRound state with
      | none => none
      | some s2 => runRevealLoop fuel s2
    else some state

/-- runFullGame from the source. -/
def runFullGame (state : GameState) : Option GameState :=
  match runRevealLoop (totalHoleCards state + 1) state with
  | none => none
  | some s2 => if s2.phase = .showdown then determineWinner s2 else some s2

/-! ### Characterization of the rank-count groups -/

/-- The number of cards of a given rank. -/
def rankCount (cards : List Card) (r : Nat) : Nat :=
  (cards.filter (fun c => c.rank = r)).length

theorem rankCount_append (cards : List Card) (c : Card) (r : Nat) :
    rankCount (cards ++ [c]) r = rankCount cards r + (if c.rank = r then 1 else 0) := by
  simp only [rankCount, List.filter_append]
  by_cases h : c.rank = r <;> simp [h]

theorem rankCount_pos_of_mem {cards : List Card} {r : Nat}
    (h : r ∈ cards.map Card.rank) : 0 < rankCount cards r := by
  rcases List.mem_map.1 h with ⟨c, hc, hr⟩
  have : c ∈ cards.filter (fun c => decide (c.rank = r)) :=
    List.mem_filter.2 ⟨hc, by simp [hr]⟩
  exact List.length_pos.2 (List.ne_nil_of_mem this)

theorem rankCount_eq_zero {cards : List Card} {r : Nat}
    (h : r ∉ cards.map Card.rank) : rankCount cards r = 0 := by
  simp only [rankCount, List.length_eq_zero, List.filter_eq_nil_iff]
  intro c hc
  simp only [decide_eq_true_eq]
  intro hr
  exact h (List.mem_map.2 ⟨c, hc, hr⟩)

/-- The invariant of the getRankCounts fold: the accumulator is exactly the
rank-count table of the processed prefix. -/
def CountsFor (acc : List (Nat × Nat)) (cards : List Card) : Prop :=
  (acc.map Prod.fst).Nodup ∧
  (acc.map Prod.snd).sum = cards.length ∧
  ∀ p : Nat × Nat, p ∈ acc ↔ p.1 ∈ cards.map Card.rank ∧ p.2 = rankCount cards p.1

theorem sum_map_snd_bump :
    ∀ (acc : List (Nat × Nat)) (k : Nat), (acc.map Prod.fst).Nodup →
      (∃ n, (k, n) ∈ acc) →
      ((acc.map (fun p => if p.1 = k then (p.1, p.2 + 1) else p)).map Prod.snd).sum =
        (acc.map Prod.snd).sum + 1
  | [], _, _, hmem => by simp at hmem
  | q :: t, k, hnd, hmem => by
    simp only [List.map_cons, List.nodup_cons] at hnd
    by_cases hq : q.1 = k
    · have ht : ∀ p ∈ t, ¬p.1 = k := by
        intro p hp hpk
        exact hnd.1 (hq ▸ hpk ▸ List.mem_map.2 ⟨p, hp, rfl⟩)
      have : t.map (fun p => if p.1 = k then (p.1, p.2 + 1) else p) = t :=
        List.map_congr_left (fun p hp => by simp [ht p hp]) |>.trans (List.map_id t)
      simp only [List.map_cons, if_pos hq, this, List.sum_cons]
      omega
    · rcases hmem with ⟨n, hn⟩
      rcases List.mem_cons.1 hn with h | h
      · exact absurd (congrArg Prod.fst h.symm) hq
      · have := sum_map_snd_bump t k hnd.2 ⟨n, h⟩
        simp only [List.map_cons, if_neg hq, List.sum_cons, this]
        omega

theorem mem_ranks_append {cards : List Card} {c : Card} {r : Nat}
    (h : r ∈ (cards ++ [c]).map Card.rank) (hne : ¬r = c.rank) :
    r ∈ cards.map Card.rank := by
  rw [List.map_append] at h
  rcases List.mem_append.1 h with h | h
  · exact h
  · simp only [List.map_cons, List.map_nil, List.mem_singleton] at h
    exact absurd h hne

theorem insertCount_ok {acc : List (Nat × Nat)} {cards : List Card} (c : Card)
    (h : CountsFor acc cards) : CountsFor (insertCount acc c) (cards ++ [c]) := by
  obtain ⟨hnd, hsum, hchar⟩ := h
  unfold insertCount
  by_cases hany : acc.any (fun p => decide (p.1 = c.rank)) = true
  · rcases List.any_eq_true.1 hany with ⟨p0, hp0, hp0k⟩
    have hp0k : p0.1 = c.rank := of_decide_eq_true hp0k
    have hcmem : c.rank ∈ cards.map Card.rank := hp0k ▸ ((hchar p0).1 hp0).1
    rw [if_pos hany]
    refine ⟨?_, ?_, ?_⟩
    · have : (acc.map (fun p => if p.1 = c.rank then (p.1, p.2 + 1) else p)).map Prod.fst
          = acc.map Prod.fst := by
        rw [List.map_map]
        exact List.map_congr_left (fun p _ => by by_cases hp : p.1 = c.rank <;> simp [hp])
      rw [this]; exact hnd
    · rw [sum_map_snd_bump acc c.rank hnd ⟨p0.2, hp0k ▸ (Prod.mk.eta ▸ hp0)⟩, hsum]
      simp
    · intro p
      constructor
      · intro hp
        rcases List.mem_map.1 hp with ⟨q, hq, hbq⟩
        have hqc := (hchar q).1 hq
        by_cases hqk : q.1 = c.rank
        · rw [if_pos hqk] at hbq
          constructor
          · rw [← hbq]; simpa using Or.inl hqc.1
          · rw [← hbq]
            show q.2 + 1 = rankCount (cards ++ [c]) q.1
            rw [rankCount_append, if_pos hqk.symm, ← hqc.2]

        · rw [if_neg hqk] at hbq
          subst hbq
          refine ⟨by simpa using Or.inl hqc.1, ?_⟩
          rw [rankCount_append, if_neg (fun hh => hqk hh.symm)]
          simpa using hqc.2
      · rintro ⟨hp1, hp2⟩
        by_cases hpk : p.1 = c.rank
        · have hold : (c.rank, rankCount cards c.rank) ∈ acc :=
            (hchar _).2 ⟨hcmem, rfl⟩
          refine List.mem_map.2 ⟨(c.rank, rankCount cards c.rank), hold, ?_⟩
          rw [if_pos rfl]
          have : p.2 = rankCount cards c.rank + 1 := by
            rw [hp2, hpk, rankCount_append, if_pos rfl]
          exact Prod.ext hpk.symm this.symm
        · have hp1' : p.1 ∈ cards.map Card.rank := mem_ranks_append hp1 hpk
          have hcnt : rankCount (cards ++ [c]) p.1 = rankCount cards p.1 := by
            rw [rankCount_append, if_neg (fun hh => hpk hh.symm)]
            omega
          have hmem : p ∈ acc := (hchar p).2 ⟨hp1', by rw [hp2, hcnt]⟩
          exact List.mem_map.2 ⟨p, hmem, by rw [if_neg hpk]⟩
  · have hall : ∀ p ∈ acc, ¬p.1 = c.rank := by
      intro p hp
      have := List.any_eq_false.1 (Bool.not_eq_true _ ▸ hany) p hp
      simpa using this
    have hfresh : c.rank ∉ cards.map Card.rank := by
      intro hc
      exact hall _ ((hchar (c.rank, rankCount cards c.rank)).2 ⟨hc, rfl⟩) rfl
    rw [if_neg hany]
    refine ⟨?_, ?_, ?_⟩
    · simp only [List.map_append, List.map_cons, List.map_nil]
      rw [List.nodup_append]
      refine ⟨hnd, List.nodup_singleton _, ?_⟩
      intro a ha hb
      rcases List.mem_map.1 ha with ⟨p, hp, hpa⟩
      simp only [List.mem_singleton] at hb
      exact hall p hp (hpa.trans hb)
    · simp only [List.map_append, List.map_cons, List.map_nil, List.sum_append,
        List.sum_cons, List.sum_nil, List.length_append, List.length_cons,
        List.length_nil, hsum]
      omega
    · intro p
      rw [List.mem_append, List.mem_singleton]
      constructor
      · rintro (hp | hp)
        · have hqc := (hchar p).1 hp
          refine ⟨by simpa using Or.inl hqc.1, ?_⟩
          rw [rankCount_append, if_neg (fun hh => hall p hp hh.symm)]
          simpa using hqc.2
        · subst hp
          refine ⟨by simp, ?_⟩
          rw [rankCount_append, if_pos rfl, rankCount_eq_zero hfresh]
      · rintro ⟨hp1, hp2⟩
        by_cases hpk : p.1 = c.rank
        · right
          have : p.2 = 1 := by
            rw [hp2, hpk, rankCount_append, if_pos rfl, rankCount_eq_zero hfresh]
          exact Prod.ext hpk this
        · left
          have hp1' : p.1 ∈ cards.map Card.rank := mem_ranks_append hp1 hpk
          have hcnt : rankCount (cards ++ [c]) p.1 = rankCount cards p.1 := by
            rw [rankCount_append, if_neg (fun hh => hpk hh.symm)]
            omega
          exact (hchar p).2 ⟨hp1', by rw [hp2, hcnt]⟩

theorem foldl_insertCount_ok :
    ∀ (rest : List Card) (acc : List (Nat × Nat)) (pref : List Card),
      CountsFor acc pref → CountsFor (rest.foldl insertCount acc) (pref ++ rest)
  | [], acc, pref, h => by simpa using h
  | c :: rest, acc, pref, h => by
    have h1 := insertCount_ok c h
    have h2 := foldl_insertCount_ok rest (insertCount acc c) (pref ++ [c]) h1
    simpa [List.append_assoc] using h2

theorem getRankCounts_ok (cards : List Card) : CountsFor (getRankCounts cards) cards := by
  have := foldl_insertCount_ok cards [] [] ⟨by simp, by simp, by simp⟩
  simpa [getRankCounts] using this

theorem sortedRankCounts_perm (cards : List Card) :
    (sortedRankCounts cards).Perm (getRankCounts cards) :=
  List.perm_insertionSort countRel (getRankCounts cards)

theorem sortedRankCounts_sorted (cards : List Card) :
    List.Sorted countRel (sortedRankCounts cards) :=
  List.sorted_insertionSort countRel (getRankCounts cards)

theorem sortedRankCounts_mem (cards : List Card) (p : Nat × Nat) :
    p ∈ sortedRankCounts cards ↔
      p.1 ∈ cards.map Card.rank ∧ p.2 = rankCount cards p.1 :=
  ((sortedRankCounts_perm cards).mem_iff).trans ((getRankCounts_ok cards).2.2 p)

theorem sortedRankCounts_sum (cards : List Card) :
    ((sortedRankCounts cards).map Prod.snd).sum = cards.length :=
  (((sortedRankCounts_perm cards).map Prod.snd).sum_eq).trans (getRankCounts_ok cards).2.1

theorem sortedRankCounts_keys_nodup (cards : List Card) :
    ((sortedRankCounts cards).map Prod.fst).Nodup :=
  (((sortedRankCounts_perm cards).map Prod.fst).nodup_iff).2 (getRankCounts_ok cards).1

/-! ### Totality of the evaluator on well-formed 5-card hands -/

theorem isFlush_some {cards : List Card} (h : cards ≠ []) :
    ∃ b, isFlush cards = some b := by
  match cards with
  | [] => exact absurd rfl h
  | c :: rest =>
    refine ⟨(c :: rest).all (fun x => decide (x.suit = c.suit)), ?_⟩
    simp [isFlush]

theorem sortRanksAsc_length (ranks : List Nat) :
    (sortRanksAsc ranks).length = ranks.length :=
  List.length_insertionSort _ ranks

theorem isStraight_some {cards : List Card} (h5 : cards.length = 5) :
    ∃ st, isStraight cards = some st := by
  have hlen : (sortRanksAsc (cards.map Card.rank)).length = 5 := by
    rw [sortRanksAsc_length, List.length_map, h5]
  match hranks : sortRanksAsc (cards.map Card.rank) with
  | [] | [_] | [_, _] | [_, _, _] | [_, _, _, _] => rw [hranks] at hlen; simp at hlen
  | a0 :: a1 :: a2 :: a3 :: a4 :: rest =>
    rw [hranks] at hlen
    simp only [List.length_cons] at hlen
    have hrest : rest = [] := List.length_eq_zero.1 (by omega)
    subst hrest
    simp only [isStraight, hranks]
    simp only [List.getElem?_cons_zero, List.getElem?_cons_succ, Option.bind_eq_bind,
      Option.some_bind]
    split_ifs <;> exact ⟨_, rfl⟩

theorem sorted_counts_head_ge {a : Nat × Nat} {l : List (Nat × Nat)}
    (h : List.Sorted countRel (a :: l)) : ∀ b ∈ l, b.2 ≤ a.2 := by
  intro b hb
  rcases (List.sorted_cons.1 h).1 b hb with h1 | ⟨h1, _⟩
  · exact le_of_lt h1
  · exact le_of_eq h1.symm

theorem evaluateHand_total (cards : List Card) (h5 : cards.length = 5)
    (hle : ∀ r ∈ cards.map Card.rank, rankCount cards r ≤ 4) :
    ∃ res, evaluateHand cards = some res := by
  obtain ⟨fl, hfl⟩ := isFlush_some (show cards ≠ [] by intro h; rw [h] at h5; simp at h5)
  obtain ⟨st, hst⟩ := isStraight_some h5
  have hsum : ((sortedRankCounts cards).map Prod.snd).sum = 5 := by
    rw [sortedRankCounts_sum, h5]
  have hsorted := sortedRankCounts_sorted cards
  have hent : ∀ p ∈ sortedRankCounts cards, 1 ≤ p.2 ∧ p.2 ≤ 4 := by
    intro p hp
    have h1 := (sortedRankCounts_mem cards p).1 hp
    exact ⟨h1.2 ▸ rankCount_pos_of_mem h1.1, h1.2 ▸ hle _ h1.1⟩
  simp only [evaluateHand, h5, ne_eq, not_true_eq_false, if_false, hfl, hst]
  by_cases hfs : (fl && st.1) = true
  · rw [if_pos hfs]; exact ⟨_, rfl⟩
  · rw [if_neg hfs]
    match hcs : sortedRankCounts cards with
    | [] => rw [hcs] at hsum; simp at hsum
    | c0 :: t =>
      rw [hcs] at hsum hsorted hent
      simp only [List.map_cons, List.sum_cons] at hsum
      simp only [List.getElem?_cons_zero]
      by_cases h4 : c0.2 = 4
      · rw [if_pos h4]
        match t with
        | [] => simp at hsum; omega
        | c1 :: t2 => simp only [List.getElem?_cons_succ, List.getElem?_cons_zero]; exact ⟨_, rfl⟩
      · rw [if_neg h4]
        by_cases h3 : c0.2 = 3
        · rw [if_pos h3]
          match t with
          | [] => simp at hsum; omega
          | c1 :: t2 =>
            simp only [List.getElem?_cons_succ, List.getElem?_cons_zero]
            by_cases h32 : c1.2 = 2
            · rw [if_pos h32]; exact ⟨_, rfl⟩
            · rw [if_neg h32]
              by_cases hfl2 : fl = true
              · rw [if_pos hfl2]; exact ⟨_, rfl⟩
              · rw [if_neg hfl2]
                by_cases hst2 : st.1 = true
                · rw [if_pos hst2]; exact ⟨_, rfl⟩
                · rw [if_neg hst2]
                  match t2 with
                  | [] =>
                    exfalso
                    have hc1 := hent c1 (by simp)
                    simp at hsum; omega
                  | c2 :: t3 =>
                    simp only [List.getElem?_cons_succ, List.getElem?_cons_zero]
                    exact ⟨_, rfl⟩
        · rw [if_neg h3]
          by_cases hfl2 : fl = true
          · rw [if_pos hfl2]; exact ⟨_, rfl⟩
          · rw [if_neg hfl2]
            by_cases hst2 : st.1 = true
            · rw [if_pos hst2]; exact ⟨_, rfl⟩
            · rw [if_neg hst2]
              by_cases h2 : c0.2 = 2
              · rw [if_pos h2]
                match t with
                | [] => simp at hsum; omega
                | c1 :: t2 =>
                  simp only [List.getElem?_cons_succ, List.getElem?_cons_zero]
                  simp only [List.map_cons, List.sum_cons] at hsum
                  by_cases h22 : c1.2 = 2
                  · rw [if_pos h22]
                    match t2 with
                    | [] => simp at hsum; omega
                    | c2 :: t3 =>
                      simp only [List.getElem?_cons_succ, List.getElem?_cons_zero]
                      exact ⟨_, rfl⟩
                  · rw [if_neg h22]
                    have hc1 := hent c1 (by simp)
                    have hc10 : c1.2 ≤ c0.2 := sorted_counts_head_ge hsorted c1 (by simp)
                    have hc1' : c1.2 = 1 := by omega
                    match t2 with
                    | [] => simp at hsum; omega
                    | [q] =>
                      exfalso
                      have hq := hent q (by simp)
                      have hq1 : q.2 ≤ c1.2 :=
                        sorted_counts_head_ge (List.sorted_cons.1 hsorted).2 q (by simp)
                      simp at hsum
                      omega
                    | q2 :: q3 :: t4 =>
                      simp only [List.getElem?_cons_succ, List.getElem?_cons_zero]
                      exact ⟨_, rfl⟩
              · rw [if_neg h2]; exact ⟨_, rfl⟩

/-- A sample card used by concrete test states. -/
def sampleCard (s : Suit) (r : Nat) : Card :=
  ⟨suitName s ++ Nat.repr r, s, r⟩

/-- Claim C10: for every input of exactly 5 cards in which no rank occurs
more than 4 times (as for 5 distinct cards of a standard 52-card deck),
every array access evaluateHand performs — `cards[0]` in the flush test,
the sorted ranks in the straight test, and `counts[0]` through `counts[3]`
in the count-based branches — is in bounds: in this Option-valued
embedding the out-of-bounds (`none`) branch is unreachable, and
evaluateHand returns a result. -/
theorem evaluateHand_accesses_in_bounds (cards : List Card)
    (h5 : cards.length = 5)
    (hle : ∀ r ∈ cards.map Card.rank, rankCount cards r ≤ 4) :
    (∃ b, isFlush cards = some b) ∧ (∃ st, isStraight cards = some st) ∧
      ∃ res, evaluateHand cards = some res :=
  ⟨isFlush_some (show cards ≠ [] by intro h; rw [h] at h5; simp at h5),
   isStraight_some h5,
   evaluateHand_total cards h5 hle⟩

/-- Witness for C10 at a concrete one-pair hand (the branch reading
`counts[3]`). -/
theorem evaluateHand_accesses_in_bounds_witness :
    (∃ b, isFlush [sampleCard .spades 14, sampleCard .hearts 14,
        sampleCard .spades 9, sampleCard .diamonds 7, sampleCard .clubs 3] = some b) ∧
    (∃ st, isStraight [sampleCard .spades 14, sampleCard .hearts 14,
        sampleCard .spades 9, sampleCard .diamonds 7, sampleCard .clubs 3] = some st) ∧
    ∃ res, evaluateHand [sampleCard .spades 14, sampleCard .hearts 14,
        sampleCard .spades 9, sampleCard .diamonds 7, sampleCard .clubs 3] = some res :=
  evaluateHand_accesses_in_bounds
    [sampleCard .spades 14, sampleCard .hearts 14,
     sampleCard .spades 9, sampleCard .diamonds 7, sampleCard .clubs 3]
    (by decide) (by decide)

/-! ### Shape of every evaluateHand result -/

/-- The number of kickers each category carries. -/
def kickerLen : HandRank → Nat
  | .straightFlush => 1
  | .fourOfAKind => 2
  | .fullHouse => 2
  | .flush => 5
  | .straight => 1
  | .threeOfAKind => 3
  | .twoPair => 3
  | .onePair => 4
  | .highCard => 5

theorem sortRanksAsc_perm (l : List Nat) : (sortRanksAsc l).Perm l :=
  List.perm_insertionSort _ l

theorem sortRanksDesc_perm (l : List Nat) : (sortRanksDesc l).Perm l :=
  List.perm_insertionSort _ l

theorem sortRanksDesc_length (l : List Nat) : (sortRanksDesc l).length = l.length :=
  List.length_insertionSort _ l

theorem isStraight_snd_cases {cards : List Card} {st : Bool × Nat}
    (h : isStraight cards = some st) :
    st.2 = 5 ∨ st.2 = 0 ∨ st.2 ∈ cards.map Card.rank := by
  simp only [isStraight, Option.bind_eq_bind] at h
  rcases h0 : (sortRanksAsc (cards.map Card.rank))[0]? with _ | a0 <;> rw [h0] at h
  · simp at h
  rcases h1 : (sortRanksAsc (cards.map Card.rank))[1]? with _ | a1 <;> rw [h1] at h
  · simp at h
  rcases h2 : (sortRanksAsc (cards.map Card.rank))[2]? with _ | a2 <;> rw [h2] at h
  · simp at h
  rcases h3 : (sortRanksAsc (cards.map Card.rank))[3]? with _ | a3 <;> rw [h3] at h
  · simp at h
  rcases h4 : (sortRanksAsc (cards.map Card.rank))[4]? with _ | a4 <;> rw [h4] at h
  · simp at h
  have ha4 : a4 ∈ cards.map Card.rank := by
    obtain ⟨hlt, hg⟩ := List.getElem?_eq_some.1 h4
    exact (sortRanksAsc_perm (cards.map Card.rank)).mem_iff.1 (hg ▸ List.getElem_mem hlt)
  simp only [Option.bind_eq_bind, Option.some_bind] at h
  split_ifs at h <;> rcases Option.some.inj h with rfl
  · exact Or.inl rfl
  · exact Or.inr (Or.inr ha4)
  · exact Or.inr (Or.inl rfl)

theorem counts_key_mem {cards : List Card} {i : Nat} {p : Nat × Nat}
    (h : (sortedRankCounts cards)[i]? = some p) : p.1 ∈ cards.map Card.rank := by
  obtain ⟨hlt, hg⟩ := List.getElem?_eq_some.1 h
  exact ((sortedRankCounts_mem cards p).1 (hg ▸ List.getElem_mem hlt)).1

/-- Every successful evaluateHand result: its strength is
calculateStrength of its category and kickers, its kicker count is fixed
by the category, and every kicker is 5, 0, or one of the hand's ranks. -/
theorem evaluateHand_spec {cards : List Card} {r : HandResult}
    (h : evaluateHand cards = some r) :
    r.strength = calculateStrength r.rank r.kickers ∧
    r.kickers.length = kickerLen r.rank ∧
    ∀ k ∈ r.kickers, k = 5 ∨ k = 0 ∨ k ∈ cards.map Card.rank := by
  by_cases hlen : cards.length = 5
  case neg =>
    simp only [evaluateHand, ne_eq, hlen, not_false_eq_true, if_true] at h
    exact Option.noConfusion h
  case pos =>
  rcases hfl : isFlush cards with _ | fl
  case none =>
    simp only [evaluateHand, hlen, ne_eq, not_true_eq_false, if_false, hfl] at h
    exact Option.noConfusion h
  rcases hst : isStraight cards with _ | st
  case none =>
    simp only [evaluateHand, hlen, ne_eq, not_true_eq_false, if_false, hfl, hst] at h
    exact Option.noConfusion h
  simp only [evaluateHand, hlen, ne_eq, not_true_eq_false, if_false, hfl, hst] at h
  have hdesc : ∀ k ∈ sortRanksDesc (cards.map Card.rank), k = 5 ∨ k = 0 ∨ k ∈ cards.map Card.rank :=
    fun k hk => Or.inr (Or.inr ((sortRanksDesc_perm (cards.map Card.rank)).mem_iff.1 hk))
  have hdlen : (sortRanksDesc (cards.map Card.rank)).length = 5 := by
    rw [sortRanksDesc_length, List.length_map, hlen]
  by_cases hfs : (fl && st.1) = true
  · rw [if_pos hfs] at h
    rcases Option.some.inj h with rfl
    refine ⟨rfl, rfl, ?_⟩
    intro k hk
    rcases List.mem_singleton.1 hk with rfl
    exact isStraight_snd_cases hst
  · rw [if_neg hfs] at h
    rcases hc0 : (sortedRankCounts cards)[0]? with _ | c0 <;> rw [hc0] at h
    · simp at h
    simp only [] at h
    by_cases h4 : c0.2 = 4
    · rw [if_pos h4] at h
      rcases hc1 : (sortedRankCounts cards)[1]? with _ | c1 <;> rw [hc1] at h
      · simp at h
      simp only [] at h
      rcases Option.some.inj h with rfl
      refine ⟨rfl, rfl, ?_⟩
      intro k hk
      rcases List.mem_cons.1 hk with rfl | hk
      · exact Or.inr (Or.inr (counts_key_mem hc0))
      rcases List.mem_singleton.1 hk with rfl
      exact Or.inr (Or.inr (counts_key_mem hc1))
    · rw [if_neg h4] at h
      by_cases h3 : c0.2 = 3
      · rw [if_pos h3] at h
        rcases hc1 : (sortedRankCounts cards)[1]? with _ | c1 <;> rw [hc1] at h
        · simp at h
        simp only [] at h
        by_cases h32 : c1.2 = 2
        · rw [if_pos h32] at h
          rcases Option.some.inj h with rfl
          refine ⟨rfl, rfl, ?_⟩
          intro k hk
          rcases List.mem_cons.1 hk with rfl | hk
          · exact Or.inr (Or.inr (counts_key_mem hc0))
          rcases List.mem_singleton.1 hk with rfl
          exact Or.inr (Or.inr (counts_key_mem hc1))
        · rw [if_neg h32] at h
          by_cases hfl2 : fl = true
          · rw [if_pos hfl2] at h
            rcases Option.some.inj h with rfl
            exact ⟨rfl, hdlen, hdesc⟩
          · rw [if_neg hfl2] at h
            by_cases hst2 : st.1 = true
            · rw [if_pos hst2] at h
              rcases Option.some.inj h with rfl
              refine ⟨rfl, rfl, ?_⟩
              intro k hk
              rcases List.mem_singleton.1 hk with rfl
              exact isStraight_snd_cases hst
            · rw [if_neg hst2] at h
              rcases hc2 : (sortedRankCounts cards)[2]? with _ | c2 <;> rw [hc2] at h
              · simp at h
              simp only [] at h
              rcases Option.some.inj h with rfl
              refine ⟨rfl, rfl, ?_⟩
              intro k hk
              rcases List.mem_cons.1 hk with rfl | hk
              · exact Or.inr (Or.inr (counts_key_mem hc0))
              rcases List.mem_cons.1 hk with rfl | hk
              · exact Or.inr (Or.inr (counts_key_mem hc1))
              rcases List.mem_singleton.1 hk with rfl
              exact Or.inr (Or.inr (counts_key_mem hc2))
      · rw [if_neg h3] at h
        by_cases hfl2 : fl = true
        · rw [if_pos hfl2] at h
          rcases Option.some.inj h with rfl
          exact ⟨rfl, hdlen, hdesc⟩
        · rw [if_neg hfl2] at h
          by_cases hst2 : st.1 = true
          · rw [if_pos hst2] at h
            rcases Option.some.inj h with rfl
            refine ⟨rfl, rfl, ?_⟩
            intro k hk
            rcases List.mem_singleton.1 hk with rfl
            exact isStraight_snd_cases hst
          · rw [if_neg hst2] at h
            by_cases h2 : c0.2 = 2
            · rw [if_pos h2] at h
              rcases hc1 : (sortedRankCounts cards)[1]? with _ | c1 <;> rw [hc1] at h
              · simp at h
              simp only [] at h
              by_cases h22 : c1.2 = 2
              · rw [if_pos h22] at h
                rcases hc2 : (sortedRankCounts cards)[2]? with _ | c2 <;> rw [hc2] at h
                · simp at h
                simp only [] at h
                rcases Option.some.inj h with rfl
                refine ⟨rfl, rfl, ?_⟩
                intro k hk
                rcases List.mem_cons.1 hk with rfl | hk
                · rcases max_choice c0.1 c1.1 with hm | hm <;> rw [hm]
                  · exact Or.inr (Or.inr (counts_key_mem hc0))
                  · exact Or.inr (Or.inr (counts_key_mem hc1))
                rcases List.mem_cons.1 hk with rfl | hk
                · rcases min_choice c0.1 c1.1 with hm | hm <;> rw [hm]
                  · exact Or.inr (Or.inr (counts_key_mem hc0))
                  · exact Or.inr (Or.inr (counts_key_mem hc1))
                rcases List.mem_singleton.1 hk with rfl
                exact Or.inr (Or.inr (counts_key_mem hc2))
              · rw [if_neg h22] at h
                rcases hc2 : (sortedRankCounts cards)[2]? with _ | c2 <;> rw [hc2] at h
                · simp at h
                rcases hc3 : (sortedRankCounts cards)[3]? with _ | c3 <;> rw [hc3] at h
                · simp at h
                simp only [] at h
                rcases Option.some.inj h with rfl
                refine ⟨rfl, rfl, ?_⟩
                intro k hk
                rcases List.mem_cons.1 hk with rfl | hk
                · exact Or.inr (Or.inr (counts_key_mem hc0))
                rcases List.mem_cons.1 hk with rfl | hk
                · exact Or.inr (Or.inr (counts_key_mem hc1))
                rcases List.mem_cons.1 hk with rfl | hk
                · exact Or.inr (Or.inr (counts_key_mem hc2))
                rcases List.mem_singleton.1 hk with rfl
                exact Or.inr (Or.inr (counts_key_mem hc3))
            · rw [if_neg h2] at h
              rcases Option.some.inj h with rfl
              exact ⟨rfl, hdlen, hdesc⟩

/-! ### The strength scalar orders hands like (category, kickers) -/

/-- Lexicographic strict order on kicker lists (most significant first). -/
def kickLt : List Nat → List Nat → Prop
  | [], [] => False
  | [], _ :: _ => True
  | _ :: _, [] => False
  | a :: as, b :: bs => a < b ∨ (a = b ∧ kickLt as bs)

theorem kickerScore_lt_pow :
    ∀ (ks : List Nat) (i : Nat), (∀ k ∈ ks, k < 15) → kickerScore ks i < 15 ^ (5 - i)
  | [], i, _ => by simp only [kickerScore]; exact pow_pos (by norm_num) _
  | k :: rest, i, hk => by
    by_cases hi : i < 5
    · have h15 : (15 : Nat) ^ (5 - i) = 15 * 15 ^ (4 - i) := by
        have h45 : 5 - i = (4 - i) + 1 := by omega
        rw [h45, pow_succ, Nat.mul_comm]
      have h1 : kickerScore rest (i + 1) < 15 ^ (4 - i) := by
        have h54 : 5 - (i + 1) = 4 - i := by omega
        have := kickerScore_lt_pow rest (i + 1)
          (fun x hx => hk x (List.mem_cons_of_mem _ hx))
        rwa [h54] at this
      have hk14 : k ≤ 14 := Nat.lt_succ_iff.1 (hk k (List.mem_cons_self _ _))
      simp only [kickerScore, if_pos hi, h15]
      calc k * 15 ^ (4 - i) + kickerScore rest (i + 1)
          < k * 15 ^ (4 - i) + 15 ^ (4 - i) := Nat.add_lt_add_left h1 _
        _ = (k + 1) * 15 ^ (4 - i) := by ring
        _ ≤ 15 * 15 ^ (4 - i) := Nat.mul_le_mul_right _ (by omega)
    · simp only [kickerScore, if_neg hi]
      exact pow_pos (by norm_num) _

theorem score_lt_of_head_lt {a b S1 S2 P : Nat} (hab : a < b) (hS1 : S1 < P) :
    a * P + S1 < b * P + S2 :=
  calc a * P + S1 < a * P + P := Nat.add_lt_add_left hS1 _
    _ = (a + 1) * P := by ring
    _ ≤ b * P := Nat.mul_le_mul_right _ (by omega)
    _ ≤ b * P + S2 := Nat.le_add_right _ _

theorem kickerScore_lt_iff :
    ∀ (k1 k2 : List Nat) (i : Nat), k1.length = k2.length → k1.length + i ≤ 5 →
      (∀ k ∈ k1, k < 15) → (∀ k ∈ k2, k < 15) →
      ((kickerScore k1 i < kickerScore k2 i ↔ kickLt k1 k2) ∧
       (kickerScore k1 i = kickerScore k2 i ↔ k1 = k2))
  | [], k2, i, hlen, _, _, _ => by
    have : k2 = [] := List.length_eq_zero.1 hlen.symm
    subst this
    simp [kickLt, kickerScore]
  | a :: as, [], i, hlen, _, _, _ => by simp at hlen
  | a :: as, b :: bs, i, hlen, hle, hb1, hb2 => by
    have hi : i < 5 := by
      simp only [List.length_cons] at hle
      omega
    have hlen' : as.length = bs.length := by
      simp only [List.length_cons] at hlen
      omega
    have hle' : as.length + (i + 1) ≤ 5 := by
      simp only [List.length_cons] at hle
      omega
    have hS1 : kickerScore as (i + 1) < 15 ^ (4 - i) := by
      have h54 : 5 - (i + 1) = 4 - i := by omega
      have := kickerScore_lt_pow as (i + 1) (fun x hx => hb1 x (List.mem_cons_of_mem _ hx))
      rwa [h54] at this
    have hS2 : kickerScore bs (i + 1) < 15 ^ (4 - i) := by
      have h54 : 5 - (i + 1) = 4 - i := by omega
      have := kickerScore_lt_pow bs (i + 1) (fun x hx => hb2 x (List.mem_cons_of_mem _ hx))
      rwa [h54] at this
    have ih := kickerScore_lt_iff as bs (i + 1) hlen' hle'
      (fun x hx => hb1 x (List.mem_cons_of_mem _ hx))
      (fun x hx => hb2 x (List.mem_cons_of_mem _ hx))
    simp only [kickerScore, if_pos hi]
    rcases Nat.lt_trichotomy a b with hab | hab | hab
    · constructor
      · constructor
        · intro _
          exact Or.inl hab
        · intro _
          exact score_lt_of_head_lt hab hS1
      · constructor
        · intro he
          exact absurd he (Nat.ne_of_lt (score_lt_of_head_lt hab hS1))
        · intro he
          rcases List.cons.injEq a as b bs ▸ he with ⟨h1, _⟩
          omega
    · subst hab
      constructor
      · rw [Nat.add_lt_add_iff_left]
        constructor
        · intro hlt
          exact Or.inr ⟨rfl, (ih.1).1 hlt⟩
        · intro hlt
          rcases hlt with h | ⟨_, h⟩
          · omega
          · exact (ih.1).2 h
      · rw [add_right_inj]
        constructor
        · intro he
          rw [(ih.2).1 he]
        · intro he
          rcases List.cons.injEq a as a bs ▸ he with ⟨_, h2⟩
          exact (ih.2).2 h2
    · have hgt : b * 15 ^ (4 - i) + kickerScore bs (i + 1) <
          a * 15 ^ (4 - i) + kickerScore as (i + 1) := score_lt_of_head_lt hab hS2
      constructor
      · constructor
        · intro hlt
          omega
        · intro hlt
          rcases hlt with h | ⟨h, _⟩ <;> omega
      · constructor
        · intro he
          omega
        · intro he
          rcases List.cons.injEq a as b bs ▸ he with ⟨h1, _⟩
          omega

theorem calculateStrength_lt_of_rank_lt {hr1 hr2 : HandRank} {ks1 ks2 : List Nat}
    (h : HAND_RANK_VALUES hr1 < HAND_RANK_VALUES hr2) (hb1 : ∀ k ∈ ks1, k < 15) :
    calculateStrength hr1 ks1 < calculateStrength hr2 ks2 := by
  unfold calculateStrength
  have h1 : kickerScore ks1 0 < 15 ^ 5 := by
    simpa using kickerScore_lt_pow ks1 0 hb1
  have h2 : (15 : Nat) ^ 5 = 759375 := by norm_num
  calc HAND_RANK_VALUES hr1 * 10000000000 + kickerScore ks1 0
      < HAND_RANK_VALUES hr1 * 10000000000 + 10000000000 := by omega
    _ = (HAND_RANK_VALUES hr1 + 1) * 10000000000 := by ring
    _ ≤ HAND_RANK_VALUES hr2 * 10000000000 := Nat.mul_le_mul_right _ (by omega)
    _ ≤ HAND_RANK_VALUES hr2 * 10000000000 + kickerScore ks2 0 := Nat.le_add_right _ _

/-- Ranks of a standard deck: 2..14. -/
def validRanks (cards : List Card) : Prop :=
  ∀ c ∈ cards, 2 ≤ c.rank ∧ c.rank ≤ 14

instance (cards : List Card) : Decidable (validRanks cards) :=
  inferInstanceAs (Decidable (∀ c ∈ cards, 2 ≤ c.rank ∧ c.rank ≤ 14))

theorem evaluateHand_kickers_lt {cards : List Card} {r : HandResult}
    (hv : validRanks cards) (h : evaluateHand cards = some r) :
    ∀ k ∈ r.kickers, k < 15 := by
  intro k hk
  rcases (evaluateHand_spec h).2.2 k hk with rfl | rfl | hmem
  · omega
  · omega
  · rcases List.mem_map.1 hmem with ⟨c, hc, rfl⟩
    have := (hv c hc).2
    omega

theorem kickerLen_le_five (hr : HandRank) : kickerLen hr ≤ 5 := by
  cases hr <;> decide

/-- Claim C1: the scalar strength computed by evaluateHand orders hands
consistently with the (category, kickers) comparison rule: a strictly
higher category gives a strictly greater strength regardless of kickers,
and within an equal category the lexicographic kicker order (most
significant first) coincides with the strength order (both for strict
comparison and for equality). -/
theorem evaluateHand_order_consistent (cards1 cards2 : List Card) (r1 r2 : HandResult)
    (hv1 : validRanks cards1) (hv2 : validRanks cards2)
    (h1 : evaluateHand cards1 = some r1) (h2 : evaluateHand cards2 = some r2) :
    (HAND_RANK_VALUES r2.rank < HAND_RANK_VALUES r1.rank → r2.strength < r1.strength) ∧
    (r1.rank = r2.rank →
      ((r1.strength < r2.strength ↔ kickLt r1.kickers r2.kickers) ∧
       (r1.strength = r2.strength ↔ r1.kickers = r2.kickers))) := by
  obtain ⟨hs1, hl1, _⟩ := evaluateHand_spec h1
  obtain ⟨hs2, hl2, _⟩ := evaluateHand_spec h2
  have hb1 := evaluateHand_kickers_lt hv1 h1
  have hb2 := evaluateHand_kickers_lt hv2 h2
  constructor
  · intro hgt
    rw [hs1, hs2]
    exact calculateStrength_lt_of_rank_lt hgt hb2
  · intro heq
    have hlen : r1.kickers.length = r2.kickers.length := by
      rw [hl1, hl2, heq]
    have hle : r1.kickers.length + 0 ≤ 5 := by
      rw [hl1]
      have := kickerLen_le_five r1.rank
      omega
    have hiff := kickerScore_lt_iff r1.kickers r2.kickers 0 hlen hle hb1 hb2
    rw [hs1, hs2, heq]
    unfold calculateStrength
    constructor
    · rw [Nat.add_lt_add_iff_left]
      exact hiff.1
    · rw [add_right_inj]
      exact hiff.2

/-- Witness for C1 at two concrete one-pair hands (aces over kings). -/
theorem evaluateHand_order_consistent_witness :
    (HAND_RANK_VALUES (mkHand .onePair [sampleCard .spades 13, sampleCard .hearts 13,
          sampleCard .hearts 9, sampleCard .clubs 7, sampleCard .diamonds 3]
          [13, 9, 7, 3]).rank <
        HAND_RANK_VALUES (mkHand .onePair [sampleCard .spades 14, sampleCard .hearts 14,
          sampleCard .spades 9, sampleCard .diamonds 7, sampleCard .clubs 3]
          [14, 9, 7, 3]).rank →
      (mkHand .onePair [sampleCard .spades 13, sampleCard .hearts 13,
          sampleCard .hearts 9, sampleCard .clubs 7, sampleCard .diamonds 3]
          [13, 9, 7, 3]).strength <
        (mkHand .onePair [sampleCard .spades 14, sampleCard .hearts 14,
          sampleCard .spades 9, sampleCard .diamonds 7, sampleCard .clubs 3]
          [14, 9, 7, 3]).strength) ∧
    ((mkHand .onePair [sampleCard .spades 14, sampleCard .hearts 14,
          sampleCard .spades 9, sampleCard .diamonds 7, sampleCard .clubs 3]
          [14, 9, 7, 3]).rank =
        (mkHand .onePair [sampleCard .spades 13, sampleCard .hearts 13,
          sampleCard .hearts 9, sampleCard .clubs 7, sampleCard .diamonds 3]
          [13, 9, 7, 3]).rank →
      (((mkHand .onePair [sampleCard .spades 14, sampleCard .hearts 14,
            sampleCard .spades 9, sampleCard .diamonds 7, sampleCard .clubs 3]
            [14, 9, 7, 3]).strength <
          (mkHand .onePair [sampleCard .spades 13, sampleCard .hearts 13,
            sampleCard .hearts 9, sampleCard .clubs 7, sampleCard .diamonds 3]
            [13, 9, 7, 3]).strength ↔
          kickLt (mkHand .onePair [sampleCard .spades 14, sampleCard .hearts 14,
            sampleCard .spades 9, sampleCard .diamonds 7, sampleCard .clubs 3]
            [14, 9, 7, 3]).kickers
            (mkHand .onePair [sampleCard .spades 13, sampleCard .hearts 13,
            sampleCard .hearts 9, sampleCard .clubs 7, sampleCard .diamonds 3]
            [13, 9, 7, 3]).kickers) ∧
       ((mkHand .onePair [sampleCard .spades 14, sampleCard .hearts 14,
            sampleCard .spades 9, sampleCard .diamonds 7, sampleCard .clubs 3]
            [14, 9, 7, 3]).strength =
          (mkHand .onePair [sampleCard .spades 13, sampleCard .hearts 13,
            sampleCard .hearts 9, sampleCard .clubs 7, sampleCard .diamonds 3]
            [13, 9, 7, 3]).strength ↔
          (mkHand .onePair [sampleCard .spades 14, sampleCard .hearts 14,
            sampleCard .spades 9, sampleCard .diamonds 7, sampleCard .clubs 3]
            [14, 9, 7, 3]).kickers =
          (mkHand .onePair [sampleCard .spades 13, sampleCard .hearts 13,
            sampleCard .hearts 9, sampleCard .clubs 7, sampleCard .diamonds 3]
            [13, 9, 7, 3]).kickers))) :=
  evaluateHand_order_consistent
    [sampleCard .spades 14, sampleCard .hearts 14,
     sampleCard .spades 9, sampleCard .diamonds 7, sampleCard .clubs 3]
    [sampleCard .spades 13, sampleCard .hearts 13,
     sampleCard .hearts 9, sampleCard .clubs 7, sampleCard .diamonds 3]
    (mkHand .onePair [sampleCard .spades 14, sampleCard .hearts 14,
      sampleCard .spades 9, sampleCard .diamonds 7, sampleCard .clubs 3] [14, 9, 7, 3])
    (mkHand .onePair [sampleCard .spades 13, sampleCard .hearts 13,
      sampleCard .hearts 9, sampleCard .clubs 7, sampleCard .diamonds 3] [13, 9, 7, 3])
    (by decide) (by decide) (by decide) (by decide)

/-! ### The ace-low straight (wheel) -/

theorem rankCount_eq_count (cards : List Card) (r : Nat) :
    rankCount cards r = (cards.map Card.rank).count r := by
  rw [List.count, List.countP_eq_length_filter, rankCount, List.filter_map,
    List.length_map]
  congr 1

theorem sortedRankCounts_five_distinct {cards : List Card} {r1 r2 r3 r4 r5 : Nat}
    (hperm : (cards.map Card.rank).Perm [r1, r2, r3, r4, r5])
    (hnd : ([r1, r2, r3, r4, r5] : List Nat).Nodup)
    (hsorted : List.Sorted countRel [(r1, 1), (r2, 1), (r3, 1), (r4, 1), (r5, 1)]) :
    sortedRankCounts cards = [(r1, 1), (r2, 1), (r3, 1), (r4, 1), (r5, 1)] := by
  have hcnt : ∀ r ∈ ([r1, r2, r3, r4, r5] : List Nat), rankCount cards r = 1 := by
    intro r hr
    rw [rankCount_eq_count, hperm.count_eq, List.count_eq_one_of_mem hnd hr]
  have hkeys : ([(r1, 1), (r2, 1), (r3, 1), (r4, 1), (r5, 1)] : List (Nat × Nat)).map
      Prod.fst = [r1, r2, r3, r4, r5] := by simp
  have htnd : ([(r1, 1), (r2, 1), (r3, 1), (r4, 1), (r5, 1)] : List (Nat × Nat)).Nodup :=
    List.Nodup.of_map Prod.fst (by rw [hkeys]; exact hnd)
  have hsnd : (sortedRankCounts cards).Nodup :=
    List.Nodup.of_map Prod.fst (sortedRankCounts_keys_nodup cards)
  have hmemiff : ∀ p : Nat × Nat,
      p ∈ sortedRankCounts cards ↔ p ∈ [(r1, 1), (r2, 1), (r3, 1), (r4, 1), (r5, 1)] := by
    intro p
    rw [sortedRankCounts_mem]
    constructor
    · rintro ⟨hmem, hval⟩
      have hp1 : p.1 ∈ ([r1, r2, r3, r4, r5] : List Nat) := hperm.mem_iff.1 hmem
      have hp2 : p.2 = 1 := by rw [hval, hcnt p.1 hp1]
      have hp : p = (p.1, 1) := Prod.ext rfl hp2
      rw [hp]
      simp only [List.mem_cons, List.mem_singleton, List.not_mem_nil, or_false] at hp1 ⊢
      rcases hp1 with rfl | rfl | rfl | rfl | rfl
      · exact Or.inl rfl
      · exact Or.inr (Or.inl rfl)
      · exact Or.inr (Or.inr (Or.inl rfl))
      · exact Or.inr (Or.inr (Or.inr (Or.inl rfl)))
      · exact Or.inr (Or.inr (Or.inr (Or.inr rfl)))
    · intro hp
      have hkey : p.1 ∈ ([r1, r2, r3, r4, r5] : List Nat) := by
        simp only [List.mem_cons, List.mem_singleton, List.not_mem_nil, or_false] at hp ⊢
        rcases hp with rfl | rfl | rfl | rfl | rfl <;> simp
      refine ⟨hperm.mem_iff.2 hkey, ?_⟩
      have hp2 : p.2 = 1 := by
        simp only [List.mem_cons, List.mem_singleton, List.not_mem_nil, or_false] at hp
        rcases hp with rfl | rfl | rfl | rfl | rfl <;> rfl
      rw [hp2, hcnt p.1 hkey]
  exact List.eq_of_perm_of_sorted
    ((List.perm_ext_iff_of_nodup hsnd htnd).2 hmemiff)
    (sortedRankCounts_sorted cards) hsorted

theorem wheel_length {cards : List Card}
    (hw : sortRanksAsc (cards.map Card.rank) = [2, 3, 4, 5, 14]) :
    cards.length = 5 := by
  have := sortRanksAsc_length (cards.map Card.rank)
  rw [hw, List.length_map] at this
  simpa using this.symm

theorem wheel_ranks_perm {cards : List Card}
    (hw : sortRanksAsc (cards.map Card.rank) = [2, 3, 4, 5, 14]) :
    (cards.map Card.rank).Perm [2, 3, 4, 5, 14] :=
  (hw ▸ sortRanksAsc_perm (cards.map Card.rank)).symm

theorem isStraight_wheel {cards : List Card}
    (hw : sortRanksAsc (cards.map Card.rank) = [2, 3, 4, 5, 14]) :
    isStraight cards = some (true, 5) := by
  simp [isStraight, hw]

theorem wheel_counts {cards : List Card}
    (hw : sortRanksAsc (cards.map Card.rank) = [2, 3, 4, 5, 14]) :
    sortedRankCounts cards = [(14, 1), (5, 1), (4, 1), (3, 1), (2, 1)] :=
  sortedRankCounts_five_distinct
    ((wheel_ranks_perm hw).trans (by decide)) (by decide) (by decide)

theorem evaluateHand_wheel {cards : List Card}
    (hw : sortRanksAsc (cards.map Card.rank) = [2, 3, 4, 5, 14]) :
    (isFlush cards = some true → evaluateHand cards = some (mkHand .straightFlush cards [5])) ∧
    (isFlush cards = some false → evaluateHand cards = some (mkHand .straight cards [5])) := by
  have hlen := wheel_length hw
  have hst := isStraight_wheel hw
  have hcounts := wheel_counts hw
  constructor
  · intro hfl
    simp [evaluateHand, hlen, hfl, hst]
  · intro hfl
    simp [evaluateHand, hlen, hfl, hst, hcounts]

theorem sixhigh_length {cards : List Card}
    (hw : sortRanksAsc (cards.map Card.rank) = [2, 3, 4, 5, 6]) :
    cards.length = 5 := by
  have := sortRanksAsc_length (cards.map Card.rank)
  rw [hw, List.length_map] at this
  simpa using this.symm

theorem isStraight_sixhigh {cards : List Card}
    (hw : sortRanksAsc (cards.map Card.rank) = [2, 3, 4, 5, 6]) :
    isStraight cards = some (true, 6) := by
  simp [isStraight, hw]

theorem sixhigh_counts {cards : List Card}
    (hw : sortRanksAsc (cards.map Card.rank) = [2, 3, 4, 5, 6]) :
    sortedRankCounts cards = [(6, 1), (5, 1), (4, 1), (3, 1), (2, 1)] :=
  sortedRankCounts_five_distinct
    (((hw ▸ sortRanksAsc_perm (cards.map Card.rank)).symm).trans (by decide))
    (by decide) (by decide)

theorem evaluateHand_sixhigh {cards : List Card}
    (hw : sortRanksAsc (cards.map Card.rank) = [2, 3, 4, 5, 6]) :
    (isFlush cards = some true → evaluateHand cards = some (mkHand .straightFlush cards [6])) ∧
    (isFlush cards = some false → evaluateHand cards = some (mkHand .straight cards [6])) := by
  have hlen := sixhigh_length hw
  have hst := isStraight_sixhigh hw
  have hcounts := sixhigh_counts hw
  constructor
  · intro hfl
    simp [evaluateHand, hlen, hfl, hst]
  · intro hfl
    simp [evaluateHand, hlen, hfl, hst, hcounts]

theorem calculateStrength_single_lt (hr : HandRank) {a b : Nat} (h : a < b) :
    calculateStrength hr [a] < calculateStrength hr [b] := by
  have h15 : (15 : Nat) ^ (4 - 0) = 50625 := by norm_num
  simp only [calculateStrength, kickerScore, if_pos (by norm_num : (0 : Nat) < 5), h15]
  omega

/-- Claim C5, amended: a hand whose ranks are {A,2,3,4,5} (the wheel)
evaluates as a straight — a straight-flush if suited — with high card 5
(its kicker list is exactly [5]); its strength is strictly below that of
any 6-high straight *of the same category* and strictly above that of any
hand of a strictly lower category.  (As stated, "above any non-straight
hand" is false: e.g. a four-of-a-kind is a non-straight hand that beats
the unsuited wheel, see the counterexample.) -/
theorem wheel_is_five_high_straight (cards : List Card)
    (hw : sortRanksAsc (cards.map Card.rank) = [2, 3, 4, 5, 14]) :
    ∃ r, evaluateHand cards = some r ∧
      r.kickers = [5] ∧
      (isFlush cards = some true → r.rank = HandRank.straightFlush) ∧
      (isFlush cards = some false → r.rank = HandRank.straight) ∧
      (∀ cards6 r6, sortRanksAsc (cards6.map Card.rank) = [2, 3, 4, 5, 6] →
        evaluateHand cards6 = some r6 → r6.rank = r.rank → r.strength < r6.strength) ∧
      (∀ c2 r2, validRanks c2 → evaluateHand c2 = some r2 →
        HAND_RANK_VALUES r2.rank < HAND_RANK_VALUES r.rank → r2.strength < r.strength) := by
  have hlen := wheel_length hw
  obtain ⟨fl, hfl⟩ := isFlush_some
    (show cards ≠ [] by intro h; rw [h] at hlen; simp at hlen)
  have hwheel := evaluateHand_wheel hw
  have sixhigh_case : ∀ (hr : HandRank) (cards6 : List Card) (r6 : HandResult),
      sortRanksAsc (cards6.map Card.rank) = [2, 3, 4, 5, 6] →
      evaluateHand cards6 = some r6 → r6.rank = hr →
      (hr = .straightFlush ∨ hr = .straight) →
      calculateStrength hr [5] < r6.strength := by
    intro hr cards6 r6 hw6 h6 hr6 hcases
    have hlen6 := sixhigh_length hw6
    obtain ⟨fl6, hfl6⟩ := isFlush_some
      (show cards6 ≠ [] by intro h; rw [h] at hlen6; simp at hlen6)
    have h6w := evaluateHand_sixhigh hw6
    cases fl6
    case false =>
      have h6' := h6w.2 hfl6
      rw [h6] at h6'
      rcases Option.some.inj h6' with rfl
      rcases hcases with rfl | rfl
      · exact absurd hr6 (by simp [mkHand])
      · exact calculateStrength_single_lt _ (by norm_num)
    case true =>
      have h6' := h6w.1 hfl6
      rw [h6] at h6'
      rcases Option.some.inj h6' with rfl
      rcases hcases with rfl | rfl
      · exact calculateStrength_single_lt _ (by norm_num)
      · exact absurd hr6 (by simp [mkHand])
  have lower_case : ∀ (hr : HandRank) (c2 : List Card) (r2 : HandResult),
      validRanks c2 → evaluateHand c2 = some r2 →
      HAND_RANK_VALUES r2.rank < HAND_RANK_VALUES hr →
      r2.strength < calculateStrength hr [5] := by
    intro hr c2 r2 hv2 h2 hlt
    have hb2 := evaluateHand_kickers_lt hv2 h2
    rw [(evaluateHand_spec h2).1]
    exact calculateStrength_lt_of_rank_lt hlt hb2
  cases fl
  case true =>
    refine ⟨mkHand .straightFlush cards [5], hwheel.1 hfl, rfl, fun _ => rfl, ?_, ?_, ?_⟩
    · intro hff
      rw [hfl] at hff
      simp at hff
    · intro cards6 r6 hw6 h6 hr6
      exact sixhigh_case .straightFlush cards6 r6 hw6 h6 hr6 (Or.inl rfl)
    · intro c2 r2 hv2 h2 hlt
      exact lower_case .straightFlush c2 r2 hv2 h2 hlt
  case false =>
    refine ⟨mkHand .straight cards [5], hwheel.2 hfl, rfl, ?_, fun _ => rfl, ?_, ?_⟩
    · intro hff
      rw [hfl] at hff
      simp at hff
    · intro cards6 r6 hw6 h6 hr6
      exact sixhigh_case .straight cards6 r6 hw6 h6 hr6 (Or.inr rfl)
    · intro c2 r2 hv2 h2 hlt
      exact lower_case .straight c2 r2 hv2 h2 hlt

/-- Counterexample to C5 as stated: the unsuited wheel is a straight, but
the non-straight hand 7-7-7-7-9 (four-of-a-kind) has strictly greater
strength, so the wheel is not "strictly above any non-straight hand". -/
theorem wheel_not_above_every_nonstraight :
    (evaluateHand [sampleCard .spades 14, sampleCard .hearts 2, sampleCard .spades 3,
        sampleCard .diamonds 4, sampleCard .clubs 5]).map HandResult.rank =
      some HandRank.straight ∧
    (evaluateHand [sampleCard .spades 7, sampleCard .hearts 7, sampleCard .diamonds 7,
        sampleCard .clubs 7, sampleCard .spades 9]).map HandResult.rank =
      some HandRank.fourOfAKind ∧
    ((evaluateHand [sampleCard .spades 14, sampleCard .hearts 2, sampleCard .spades 3,
        sampleCard .diamonds 4, sampleCard .clubs 5]).map HandResult.strength).getD 0 <
      ((evaluateHand [sampleCard .spades 7, sampleCard .hearts 7, sampleCard .diamonds 7,
        sampleCard .clubs 7, sampleCard .spades 9]).map HandResult.strength).getD 0 := by
  decide

/-- Witness for the amended C5 at a concrete unsuited wheel. -/
theorem wheel_is_five_high_straight_witness :
    ∃ r, evaluateHand [sampleCard .spades 14, sampleCard .hearts 2, sampleCard .spades 3,
        sampleCard .diamonds 4, sampleCard .clubs 5] = some r ∧
      r.kickers = [5] ∧
      (isFlush [sampleCard .spades 14, sampleCard .hearts 2, sampleCard .spades 3,
        sampleCard .diamonds 4, sampleCard .clubs 5] = some true →
        r.rank = HandRank.straightFlush) ∧
      (isFlush [sampleCard .spades 14, sampleCard .hearts 2, sampleCard .spades 3,
        sampleCard .diamonds 4, sampleCard .clubs 5] = some false →
        r.rank = HandRank.straight) ∧
      (∀ cards6 r6, sortRanksAsc (cards6.map Card.rank) = [2, 3, 4, 5, 6] →
        evaluateHand cards6 = some r6 → r6.rank = r.rank → r.strength < r6.strength) ∧
      (∀ c2 r2, validRanks c2 → evaluateHand c2 = some r2 →
        HAND_RANK_VALUES r2.rank < HAND_RANK_VALUES r.rank → r2.strength < r.strength) :=
  wheel_is_five_high_straight
    [sampleCard .spades 14, sampleCard .hearts 2, sampleCard .spades 3,
     sampleCard .diamonds 4, sampleCard .clubs 5] (by decide)

/-! ### findBestHand dominates every 5-card subset -/

theorem combinations_complete {α : Type} {sub l : List α} (h : sub.Sublist l) :
    sub ∈ combinations l sub.length := by
  induction h with
  | slnil =>
    rw [show combinations ([] : List α) ([] : List α).length = [[]] from rfl]
    exact List.mem_singleton.2 rfl
  | @cons l1 l2 a h ih =>
    match l1, ih with
    | [], _ =>
      rw [show combinations (a :: l2) ([] : List α).length = [[]] from rfl]
      exact List.mem_singleton.2 rfl
    | x :: xs, ih =>
      simp only [List.length_cons, combinations, List.mem_append] at ih ⊢
      exact Or.inr ih
  | @cons₂ l1 l2 a h ih =>
    simp only [List.length_cons, combinations, List.mem_append]
    exact Or.inl (List.mem_map.2 ⟨l1, ih, rfl⟩)

theorem combinations_sound {α : Type} :
    ∀ (l : List α) (k : Nat) (sub : List α), sub ∈ combinations l k →
      sub.Sublist l ∧ sub.length = k
  | l, 0, sub, h => by
    rw [show combinations l 0 = [[]] from by cases l <;> rfl] at h
    rcases List.mem_singleton.1 h with rfl
    exact ⟨List.nil_sublist l, rfl⟩
  | [], k + 1, sub, h => by simp [combinations] at h
  | x :: xs, k + 1, sub, h => by
    rcases List.mem_append.1 h with h1 | h1
    · rcases List.mem_map.1 h1 with ⟨c, hc, rfl⟩
      obtain ⟨hs, hl⟩ := combinations_sound xs k c hc
      exact ⟨List.Sublist.cons₂ x hs, by simp [hl]⟩
    · obtain ⟨hs, hl⟩ := combinations_sound xs (k + 1) sub h1
      exact ⟨hs.trans (List.sublist_cons_self x xs), hl⟩

theorem combinations_ne_nil {α : Type} :
    ∀ (l : List α) (k : Nat), k ≤ l.length → combinations l k ≠ []
  | l, 0, _ => by cases l <;> simp [combinations]
  | [], k + 1, h => by simp at h
  | x :: xs, k + 1, h => by
    have := combinations_ne_nil xs k (by simp at h; omega)
    simp only [combinations, ne_eq, List.append_eq_nil, List.map_eq_nil_iff, not_and]
    intro hc
    exact absurd hc this

theorem mapOption_some_of_all {α β : Type} {f : α → Option β} :
    ∀ {l : List α}, (∀ a ∈ l, ∃ b, f a = some b) → ∃ l', mapOption f l = some l'
  | [], _ => ⟨[], rfl⟩
  | x :: xs, h => by
    obtain ⟨y, hy⟩ := h x (List.mem_cons_self _ _)
    obtain ⟨ys, hys⟩ := mapOption_some_of_all (fun a ha => h a (List.mem_cons_of_mem _ ha))
    exact ⟨y :: ys, by simp [mapOption, hy, hys]⟩

theorem mapOption_mem_right {α β : Type} {f : α → Option β} :
    ∀ {l : List α} {l' : List β} {b : β}, mapOption f l = some l' → b ∈ l' →
      ∃ a ∈ l, f a = some b
  | [], l', b, h, hb => by
    rcases Option.some.inj h with rfl
    simp at hb
  | x :: xs, l', b, h, hb => by
    rcases hfx : f x with _ | y
    · simp [mapOption, hfx] at h
    rcases hys : mapOption f xs with _ | ys
    · simp [mapOption, hfx, hys] at h
    simp only [mapOption, hfx, hys] at h
    rcases Option.some.inj h with rfl
    rcases List.mem_cons.1 hb with rfl | hb2
    · exact ⟨x, List.mem_cons_self _ _, hfx⟩
    · obtain ⟨a, ha, hfa⟩ := mapOption_mem_right hys hb2
      exact ⟨a, List.mem_cons_of_mem _ ha, hfa⟩

theorem mapOption_mem_left {α β : Type} {f : α → Option β} :
    ∀ {l : List α} {l' : List β} {a : α}, mapOption f l = some l' → a ∈ l →
      ∃ b ∈ l', f a = some b
  | [], l', a, h, ha => by simp at ha
  | x :: xs, l', a, h, ha => by
    rcases hfx : f x with _ | y
    · simp [mapOption, hfx] at h
    rcases hys : mapOption f xs with _ | ys
    · simp [mapOption, hfx, hys] at h
    simp only [mapOption, hfx, hys] at h
    rcases Option.some.inj h with rfl
    rcases List.mem_cons.1 ha with rfl | ha2
    · exact ⟨y, List.mem_cons_self _ _, hfx⟩
    · obtain ⟨b, hb, hfb⟩ := mapOption_mem_left hys ha2
      exact ⟨b, List.mem_cons_of_mem _ hb, hfb⟩

theorem mapOption_length {α β : Type} {f : α → Option β} :
    ∀ {l : List α} {l' : List β}, mapOption f l = some l' → l'.length = l.length
  | [], l', h => by
    rcases Option.some.inj h with rfl
    rfl
  | x :: xs, l', h => by
    rcases hfx : f x with _ | y
    · simp [mapOption, hfx] at h
    rcases hys : mapOption f xs with _ | ys
    · simp [mapOption, hfx, hys] at h
    simp only [mapOption, hfx, hys] at h
    rcases Option.some.inj h with rfl
    simp [mapOption_length hys]

/-- The fold step of findBestHand. -/
def bestStep (best : Option HandResult) (hand : HandResult) : Option HandResult :=
  match best with
  | none => some hand
  | some b => if b.strength < hand.strength then some hand else some b

theorem bestOf_eq_foldl (hands : List HandResult) :
    bestOf hands = hands.foldl bestStep none := rfl

theorem bestOf_go_max :
    ∀ (hands : List HandResult) (b r : HandResult),
      hands.foldl bestStep (some b) = some r →
      b.strength ≤ r.strength ∧ ∀ x ∈ hands, x.strength ≤ r.strength
  | [], b, r, h => by
    rcases Option.some.inj h with rfl
    exact ⟨le_refl _, by simp⟩
  | x :: xs, b, r, h => by
    simp only [List.foldl_cons] at h
    by_cases hbx : b.strength < x.strength
    · rw [show bestStep (some b) x = some x from by simp [bestStep, hbx]] at h
      obtain ⟨h1, h2⟩ := bestOf_go_max xs x r h
      refine ⟨le_trans (le_of_lt hbx) h1, ?_⟩
      intro y hy
      rcases List.mem_cons.1 hy with rfl | hy2
      · exact h1
      · exact h2 y hy2
    · rw [show bestStep (some b) x = some b from by simp [bestStep, hbx]] at h
      obtain ⟨h1, h2⟩ := bestOf_go_max xs b r h
      refine ⟨h1, ?_⟩
      intro y hy
      rcases List.mem_cons.1 hy with rfl | hy2
      · exact le_trans (Nat.le_of_not_lt hbx) h1
      · exact h2 y hy2

theorem bestOf_max {hands : List HandResult} {r : HandResult}
    (h : bestOf hands = some r) : ∀ x ∈ hands, x.strength ≤ r.strength := by
  match hands with
  | [] => simp [bestOf] at h
  | x :: xs =>
    rw [bestOf_eq_foldl, List.foldl_cons,
      show bestStep none x = some x from rfl] at h
    obtain ⟨h1, h2⟩ := bestOf_go_max xs x r h
    intro y hy
    rcases List.mem_cons.1 hy with rfl | hy2
    · exact h1
    · exact h2 y hy2

/-- Claim C6: for 5 to 10 distinct cards, findBestHand returns a result at
least as strong as evaluateHand on any 5-card subset, and with exactly 5
cards it returns exactly evaluateHand of those cards. -/
theorem findBestHand_ge_subsets (cards : List Card) (r : HandResult)
    (h5 : 5 ≤ cards.length) (h10 : cards.length ≤ 10) (hnd : cards.Nodup)
    (hr : findBestHand cards = some r) :
    (∀ sub, sub.Sublist cards → sub.length = 5 →
      ∀ r2, evaluateHand sub = some r2 → r2.strength ≤ r.strength) ∧
    (cards.length = 5 → findBestHand cards = evaluateHand cards) := by
  have hnlt : ¬cards.length < 5 := Nat.not_lt.2 h5
  by_cases heq : cards.length = 5
  · constructor
    · intro sub hsub hlen r2 hr2
      have hsubeq : sub = cards := hsub.eq_of_length (by rw [hlen, heq])
      subst hsubeq
      have : findBestHand sub = evaluateHand sub := by
        simp [findBestHand, hnlt, heq]
      rw [this, hr2] at hr
      rcases Option.some.inj hr with rfl
      exact le_refl _
    · intro _
      simp [findBestHand, hnlt, heq]
  · simp only [findBestHand, if_neg hnlt, if_neg heq] at hr
    rcases hmo : mapOption evaluateHand (combinations cards 5) with _ | hands <;>
      rw [hmo] at hr
    · exact absurd hr (by simp)
    constructor
    · intro sub hsub hlen r2 hr2
      have hmem : sub ∈ combinations cards 5 := hlen ▸ combinations_complete hsub
      obtain ⟨b, hb, hfb⟩ := mapOption_mem_left hmo hmem
      rw [hr2] at hfb
      rw [Option.some.inj hfb]
      exact bestOf_max hr b hb
    · intro heq2
      exact absurd heq2 heq

/-- Witness for C6 at a concrete 6-card set. -/
theorem findBestHand_ge_subsets_witness :
    (∀ sub, sub.Sublist [sampleCard .spades 14, sampleCard .hearts 14, sampleCard .spades 9,
        sampleCard .diamonds 7, sampleCard .clubs 3, sampleCard .clubs 12] →
      sub.length = 5 →
      ∀ r2, evaluateHand sub = some r2 →
        r2.strength ≤ ((findBestHand [sampleCard .spades 14, sampleCard .hearts 14,
          sampleCard .spades 9, sampleCard .diamonds 7, sampleCard .clubs 3,
          sampleCard .clubs 12]).getD (mkHand .highCard [] [])).strength) ∧
    ([sampleCard .spades 14, sampleCard .hearts 14, sampleCard .spades 9,
        sampleCard .diamonds 7, sampleCard .clubs 3, sampleCard .clubs 12].length = 5 →
      findBestHand [sampleCard .spades 14, sampleCard .hearts 14, sampleCard .spades 9,
        sampleCard .diamonds 7, sampleCard .clubs 3, sampleCard .clubs 12] =
      evaluateHand [sampleCard .spades 14, sampleCard .hearts 14, sampleCard .spades 9,
        sampleCard .diamonds 7, sampleCard .clubs 3, sampleCard .clubs 12]) :=
  findBestHand_ge_subsets
    [sampleCard .spades 14, sampleCard .hearts 14, sampleCard .spades 9,
     sampleCard .diamonds 7, sampleCard .clubs 3, sampleCard .clubs 12]
    ((findBestHand [sampleCard .spades 14, sampleCard .hearts 14, sampleCard .spades 9,
      sampleCard .diamonds 7, sampleCard .clubs 3, sampleCard .clubs 12]).getD
      (mkHand .highCard [] []))
    (by decide) (by decide) (by decide) (by decide)

/-! ### Ineligible reveal calls are no-ops -/

theorem findIdx?_found {α : Type} {q : α → Bool} :
    ∀ {l : List α} {s i : Nat}, List.findIdx? q l s = some i →
      ∃ j a, i = s + j ∧ l[j]? = some a ∧ q a = true
  | [], s, i, h => by simp [List.findIdx?] at h
  | x :: xs, s, i, h => by
    rw [List.findIdx?_cons] at h
    by_cases hx : q x = true
    · rw [if_pos hx] at h
      rcases Option.some.inj h with rfl
      exact ⟨0, x, by omega, by simp, hx⟩
    · rw [if_neg hx] at h
      obtain ⟨j, a, hij, hja, hqa⟩ := findIdx?_found h
      exact ⟨j + 1, a, by omega, by simpa using hja, hqa⟩

/-- Claim C7: whenever the (playerId, cardId) pair is not currently
eligible — wrong phase, player not in waitingForPlayers, no player with
that id, or cardId not among that player's hole cards — revealSelectedCard
returns the state completely unchanged.  (The embedding is a total
function: no error can be raised.) -/
theorem revealSelectedCard_noop (s : GameState) (playerId : Nat) (cardId : String)
    (h : s.phase ≠ Phase.revealing ∨ playerId ∉ s.waitingForPlayers ∨
      (∀ p ∈ s.players, p.id ≠ playerId) ∨
      (∀ p ∈ s.players, p.id = playerId → ∀ c ∈ p.holeCards, c.id ≠ cardId)) :
    revealSelectedCard s playerId cardId = s := by
  unfold revealSelectedCard
  by_cases hph : s.phase = Phase.revealing
  case neg => rw [if_pos hph]
  case pos =>
  rw [if_neg (fun hn => hn hph)]
  by_cases hwait : playerId ∈ s.waitingForPlayers
  case neg => rw [if_pos hwait]
  case pos =>
  rw [if_neg (fun hn => hn hwait)]
  rcases hidx : s.players.findIdx? (fun p => decide (p.id = playerId)) with _ | idx
  · simp [hidx]
  obtain ⟨j, a, hij, hja, hqa⟩ := findIdx?_found hidx
  have hij0 : idx = j := by omega
  subst hij0
  have haid : a.id = playerId := of_decide_eq_true hqa
  have hamem : a ∈ s.players := by
    obtain ⟨hlt, hg⟩ := List.getElem?_eq_some.1 hja
    exact hg ▸ List.getElem_mem hlt
  rcases h with h | h | h | h
  · exact absurd hph h
  · exact absurd hwait h
  · exact absurd haid (h a hamem)
  · rcases hfind : a.holeCards.find? (fun c => decide (c.id = cardId)) with _ | card
    · simp [hidx, hja, hfind]
    · exfalso
      have hq := List.find?_some hfind
      have hq2 : decide (card.id = cardId) = true := hq
      have hcid : card.id = cardId := of_decide_eq_true hq2
      have hcmem : card ∈ a.holeCards := List.mem_of_find?_eq_some hfind
      exact h a hamem haid card hcmem hcid

/-- Witness for C7: acting in the showdown phase changes nothing. -/
theorem revealSelectedCard_noop_witness :
    revealSelectedCard
      ⟨[⟨0, "p0", [sampleCard .spades 2], [sampleCard .hearts 3], []⟩], [],
        Phase.showdown, 0, [], none, [0]⟩ 0 "h3" =
    ⟨[⟨0, "p0", [sampleCard .spades 2], [sampleCard .hearts 3], []⟩], [],
      Phase.showdown, 0, [], none, [0]⟩ :=
  revealSelectedCard_noop
    ⟨[⟨0, "p0", [sampleCard .spades 2], [sampleCard .hearts 3], []⟩], [],
      Phase.showdown, 0, [], none, [0]⟩ 0 "h3" (Or.inl (by decide))

/-! ### startRevealRound is idempotent -/

/-- Claim C9: running startRevealRound twice equals running it once —
re-deriving waitingForPlayers from an already-started round changes
nothing (composition through `Option.bind`; a failing run stays failing). -/
theorem startRevealRound_idempotent (s : GameState) :
    (startRevealRound s).bind startRevealRound = startRevealRound s := by
  by_cases hph : s.phase = Phase.revealing
  case neg =>
    have h1 : startRevealRound s = some s := by
      simp [startRevealRound, hph]
    rw [h1, Option.some_bind]
    exact h1
  case pos =>
  rcases hw : findWeakestPlayers s.players with _ | w
  · have h1 : startRevealRound s = none := by
      simp [startRevealRound, hph, hw]
    rw [h1]
    rfl
  · by_cases hwe : w.length = 0
    · have h1 : startRevealRound s =
          some { s with phase := Phase.showdown, waitingForPlayers := [] } := by
        simp [startRevealRound, hph, hw, hwe]
      rw [h1, Option.some_bind]
      simp [startRevealRound]
    · have h1 : startRevealRound s =
          some { s with waitingForPlayers := w.map Player.id } := by
        simp [startRevealRound, hph, hw, hwe]
      rw [h1, Option.some_bind]
      simp [startRevealRound, hph, hw, hwe]

/-! ### startRevealRound waits for exactly the weakest hole-card holders -/

theorem foldMin_facts :
    ∀ (xs : List Nat) (init : Nat),
      (xs.foldl (fun m x => if x < m then x else m) init ≤ init) ∧
      (∀ x ∈ xs, xs.foldl (fun m x => if x < m then x else m) init ≤ x) ∧
      (xs.foldl (fun m x => if x < m then x else m) init = init ∨
        xs.foldl (fun m x => if x < m then x else m) init ∈ xs)
  | [], init => ⟨le_refl _, by simp, Or.inl rfl⟩
  | y :: ys, init => by
    simp only [List.foldl_cons]
    obtain ⟨ih1, ih2, ih3⟩ := foldMin_facts ys (if y < init then y else init)
    have hinit : (if y < init then y else init) ≤ init := by
      split <;> omega
    have hy : (if y < init then y else init) ≤ y := by
      split <;> omega
    refine ⟨le_trans ih1 hinit, ?_, ?_⟩
    · intro x hx
      rcases List.mem_cons.1 hx with rfl | hx2
      · exact le_trans ih1 hy
      · exact ih2 x hx2
    · rcases ih3 with h | h
      · by_cases hyi : y < init
        · refine Or.inr ?_
          rw [if_pos hyi] at h ⊢
          rw [h]
          exact List.mem_cons_self _ _
        · refine Or.inl ?_
          rw [if_neg hyi] at h ⊢
          exact h
      · exact Or.inr (List.mem_cons_of_mem _ h)

theorem foldMax_facts :
    ∀ (xs : List Nat) (init : Nat),
      (init ≤ xs.foldl (fun m x => if m < x then x else m) init) ∧
      (∀ x ∈ xs, x ≤ xs.foldl (fun m x => if m < x then x else m) init) ∧
      (xs.foldl (fun m x => if m < x then x else m) init = init ∨
        xs.foldl (fun m x => if m < x then x else m) init ∈ xs)
  | [], init => ⟨le_refl _, by simp, Or.inl rfl⟩
  | y :: ys, init => by
    simp only [List.foldl_cons]
    obtain ⟨ih1, ih2, ih3⟩ := foldMax_facts ys (if init < y then y else init)
    have hinit : init ≤ (if init < y then y else init) := by
      split <;> omega
    have hy : y ≤ (if init < y then y else init) := by
      split <;> omega
    refine ⟨le_trans hinit ih1, ?_, ?_⟩
    · intro x hx
      rcases List.mem_cons.1 hx with rfl | hx2
      · exact le_trans hy ih1
      · exact ih2 x hx2
    · rcases ih3 with h | h
      · by_cases hyi : init < y
        · refine Or.inr ?_
          rw [if_pos hyi] at h ⊢
          rw [h]
          exact List.mem_cons_self _ _
        · refine Or.inl ?_
          rw [if_neg hyi] at h ⊢
          exact h
      · exact Or.inr (List.mem_cons_of_mem _ h)

/-- Claim C2: in phase revealing, startRevealRound leaves the phase at
revealing and sets waitingForPlayers to exactly the ids of the players who
hold at least one hole card and whose current strength (findBestHand over
door + already-revealed cards only, which is what getCurrentStrength
computes) equals the minimum current strength among hole-card holders —
all tied players included.  If no player holds a hole card, the phase
becomes showdown and waitingForPlayers becomes empty. -/
theorem startRevealRound_waiting_spec (s s2 : GameState)
    (hph : s.phase = Phase.revealing) (hrun : startRevealRound s = some s2) :
    (s.players.filter (fun p => 0 < p.holeCards.length) = [] →
      s2.phase = Phase.showdown ∧ s2.waitingForPlayers = []) ∧
    (s.players.filter (fun p => 0 < p.holeCards.length) ≠ [] →
      s2.phase = Phase.revealing ∧ ∃ m,
        (∃ p ∈ s.players, 0 < p.holeCards.length ∧
          (getCurrentStrength p).map HandResult.strength = some m) ∧
        (∀ p ∈ s.players, 0 < p.holeCards.length →
          ∃ v, (getCurrentStrength p).map HandResult.strength = some v ∧ m ≤ v) ∧
        (∀ pid, pid ∈ s2.waitingForPlayers ↔
          ∃ p ∈ s.players, p.id = pid ∧ 0 < p.holeCards.length ∧
            (getCurrentStrength p).map HandResult.strength = some m)) := by
  simp only [startRevealRound, hph, ne_eq, not_true_eq_false, if_false] at hrun
  rcases hw : findWeakestPlayers s.players with _ | w <;> rw [hw] at hrun
  · exact absurd hrun (by simp)
  simp only [] at hrun
  simp only [findWeakestPlayers] at hw
  by_cases hh : s.players.filter (fun p => 0 < p.holeCards.length) = []
  · rw [hh] at hw
    simp only [List.length_nil, if_pos rfl] at hw
    rcases Option.some.inj hw with rfl
    simp only [List.length_nil, if_pos rfl] at hrun
    rcases Option.some.inj hrun with rfl
    exact ⟨fun _ => ⟨rfl, rfl⟩, fun hne => absurd hh hne⟩
  · have hlen0 : ¬(s.players.filter (fun p => 0 < p.holeCards.length)).length = 0 :=
      fun h0 => hh (List.length_eq_zero.1 h0)
    rw [if_neg hlen0] at hw
    rcases hmo : mapOption (fun p => (getCurrentStrength p).map (fun s => (p, s)))
        (s.players.filter (fun p => 0 < p.holeCards.length)) with _ | strengths <;>
      rw [hmo] at hw
    · exact absurd hw (by simp)
    simp only [] at hw
    rcases hs0 : strengths[0]? with _ | s0 <;> rw [hs0] at hw
    · exfalso
      have := List.getElem?_eq_none_iff.1 hs0
      have hlen := mapOption_length hmo
      omega
    simp only [] at hw
    rcases Option.some.inj hw with rfl
    have hfold := foldMin_facts (strengths.map (fun ps => ps.2.strength)) s0.2.strength
    rw [List.foldl_map] at hfold
    obtain ⟨hfle, hflmem, hflattain⟩ := hfold
    set m := strengths.foldl (fun m ps => if ps.2.strength < m then ps.2.strength else m)
      s0.2.strength with hm
    have hs0mem : s0 ∈ strengths := by
      obtain ⟨hlt, hg⟩ := List.getElem?_eq_some.1 hs0
      exact hg ▸ List.getElem_mem hlt
    have hattain : ∃ ps ∈ strengths, ps.2.strength = m := by
      rcases hflattain with h | h
      · exact ⟨s0, hs0mem, h.symm⟩
      · rcases List.mem_map.1 h with ⟨ps, hps, hv⟩
        exact ⟨ps, hps, hv⟩
    have hle : ∀ ps ∈ strengths, m ≤ ps.2.strength := by
      intro ps hps
      exact hflmem _ (List.mem_map.2 ⟨ps, hps, rfl⟩)
    have hdecomp : ∀ {p : Player} {ps : Player × HandResult},
        (getCurrentStrength p).map (fun s => (p, s)) = some ps →
        ps.1 = p ∧ getCurrentStrength p = some ps.2 := by
      intro p ps hps
      rcases Option.map_eq_some'.1 hps with ⟨hr, hhr, hpr⟩
      rw [← hpr]
      exact ⟨rfl, hhr⟩
    have hwne : (strengths.filter (fun ps => ps.2.strength = m)).map Prod.fst ≠ [] := by
      obtain ⟨ps, hps, hv⟩ := hattain
      have : ps ∈ strengths.filter (fun ps => decide (ps.2.strength = m)) :=
        List.mem_filter.2 ⟨hps, by simp [hv]⟩
      simp only [ne_eq, List.map_eq_nil_iff]
      exact List.ne_nil_of_mem this
    have hwlen : ¬((strengths.filter (fun ps => ps.2.strength = m)).map Prod.fst).length = 0 := by
      intro h0
      exact hwne (List.length_eq_zero.1 h0)
    rw [if_neg hwlen] at hrun
    rcases Option.some.inj hrun with rfl
    refine ⟨fun h0 => absurd h0 hh, fun _ => ⟨rfl, m, ?_, ?_, ?_⟩⟩
    · obtain ⟨ps, hps, hv⟩ := hattain
      obtain ⟨a, ha, hfa⟩ := mapOption_mem_right hmo hps
      obtain ⟨hps1, hps2⟩ := hdecomp hfa
      have hamem := List.mem_filter.1 ha
      refine ⟨a, hamem.1, by simpa using hamem.2, ?_⟩
      rw [hps2, Option.map_some']
      simp [hv]
    · intro p hp hhole
      have hpf : p ∈ s.players.filter (fun p => 0 < p.holeCards.length) :=
        List.mem_filter.2 ⟨hp, by simpa using hhole⟩
      obtain ⟨ps, hps, hfp⟩ := mapOption_mem_left hmo hpf
      obtain ⟨hps1, hps2⟩ := hdecomp hfp
      exact ⟨ps.2.strength, by rw [hps2, Option.map_some'], hle ps hps⟩
    · intro pid
      constructor
      · intro hpid
        simp only [List.mem_map] at hpid
        obtain ⟨q, hq, hqid⟩ := hpid
        rcases hq with ⟨ps, hpsf, hps1⟩
        have hpsmem := List.mem_filter.1 hpsf
        have hv : ps.2.strength = m := by simpa using hpsmem.2
        obtain ⟨a, ha, hfa⟩ := mapOption_mem_right hmo hpsmem.1
        obtain ⟨hpa, hstr⟩ := hdecomp hfa
        have hamem := List.mem_filter.1 ha
        refine ⟨a, hamem.1, ?_, by simpa using hamem.2, ?_⟩
        · rw [← hqid, ← hps1, hpa]
        · rw [hstr, Option.map_some', hv]
      · rintro ⟨p, hp, hpid, hhole, hstr⟩
        have hpf : p ∈ s.players.filter (fun p => 0 < p.holeCards.length) :=
          List.mem_filter.2 ⟨hp, by simpa using hhole⟩
        obtain ⟨ps, hps, hfp⟩ := mapOption_mem_left hmo hpf
        obtain ⟨hps1, hps2⟩ := hdecomp hfp
        have hv : ps.2.strength = m := by
          rw [hps2, Option.map_some'] at hstr
          exact Option.some.inj hstr
        refine List.mem_map.2 ⟨ps.1,
          List.mem_map.2 ⟨ps, List.mem_filter.2 ⟨hps, by simpa using hv⟩, rfl⟩, ?_⟩
        rw [hps1, hpid]

/-- A small concrete two-player game state used by witnesses: five door
cards each, one hole card each, phase revealing. -/
def demoState : GameState :=
  ⟨[⟨0, "a", [sampleCard .spades 2, sampleCard .hearts 4, sampleCard .diamonds 6,
      sampleCard .clubs 8, sampleCard .spades 10], [sampleCard .hearts 11], []⟩,
    ⟨1, "b", [sampleCard .spades 14, sampleCard .hearts 14, sampleCard .diamonds 14,
      sampleCard .clubs 9, sampleCard .spades 5], [sampleCard .clubs 13], []⟩],
   [], .revealing, 0, [], none, []⟩

/-- Witness for C2 at `demoState`. -/
theorem startRevealRound_waiting_spec_witness :
    (demoState.players.filter (fun p => 0 < p.holeCards.length) = [] →
      ((startRevealRound demoState).getD demoState).phase = Phase.showdown ∧
      ((startRevealRound demoState).getD demoState).waitingForPlayers = []) ∧
    (demoState.players.filter (fun p => 0 < p.holeCards.length) ≠ [] →
      ((startRevealRound demoState).getD demoState).phase = Phase.revealing ∧ ∃ m,
        (∃ p ∈ demoState.players, 0 < p.holeCards.length ∧
          (getCurrentStrength p).map HandResult.strength = some m) ∧
        (∀ p ∈ demoState.players, 0 < p.holeCards.length →
          ∃ v, (getCurrentStrength p).map HandResult.strength = some v ∧ m ≤ v) ∧
        (∀ pid, pid ∈ ((startRevealRound demoState).getD demoState).waitingForPlayers ↔
          ∃ p ∈ demoState.players, p.id = pid ∧ 0 < p.holeCards.length ∧
            (getCurrentStrength p).map HandResult.strength = some m)) :=
  startRevealRound_waiting_spec demoState ((startRevealRound demoState).getD demoState)
    rfl (by decide)

/-! ### determineWinner keeps exactly the maximal players -/

/-- Claim C3: in phase showdown with a non-empty player list,
determineWinner sets the phase to finished and the winner list to exactly
the players whose final strength (findBestHand over the full card set,
via getFinalStrength) equals the maximum final strength — every tied
player included and nobody below the maximum. -/
theorem determineWinner_spec (s s2 : GameState)
    (hph : s.phase = Phase.showdown) (hne : s.players ≠ [])
    (hrun : determineWinner s = some s2) :
    s2.phase = Phase.finished ∧ ∃ m w, s2.winner = some w ∧
      (∃ p ∈ s.players, (getFinalStrength p).map HandResult.strength = some m) ∧
      (∀ p ∈ s.players, ∃ v, (getFinalStrength p).map HandResult.strength = some v ∧ v ≤ m) ∧
      (∀ q, q ∈ w ↔ q ∈ s.players ∧ (getFinalStrength q).map HandResult.strength = some m) := by
  simp only [determineWinner, hph, ne_eq, not_true_eq_false, if_false] at hrun
  rcases hmo : mapOption (fun p => (getFinalStrength p).map (fun s => (p, s)))
      s.players with _ | strengths <;> rw [hmo] at hrun
  · exact absurd hrun (by simp)
  simp only [] at hrun
  rcases hs0 : strengths[0]? with _ | s0 <;> rw [hs0] at hrun
  · exfalso
    have := List.getElem?_eq_none_iff.1 hs0
    have hlen := mapOption_length hmo
    have : s.players.length = 0 := by omega
    exact hne (List.length_eq_zero.1 this)
  simp only [] at hrun
  rcases Option.some.inj hrun with rfl
  have hfold := foldMax_facts (strengths.map (fun ps => ps.2.strength)) s0.2.strength
  rw [List.foldl_map] at hfold
  obtain ⟨hfge, hfmem, hfattain⟩ := hfold
  set m := strengths.foldl (fun m ps => if m < ps.2.strength then ps.2.strength else m)
    s0.2.strength with hm
  have hs0mem : s0 ∈ strengths := by
    obtain ⟨hlt, hg⟩ := List.getElem?_eq_some.1 hs0
    exact hg ▸ List.getElem_mem hlt
  have hattain : ∃ ps ∈ strengths, ps.2.strength = m := by
    rcases hfattain with h | h
    · exact ⟨s0, hs0mem, h.symm⟩
    · rcases List.mem_map.1 h with ⟨ps, hps, hv⟩
      exact ⟨ps, hps, hv⟩
  have hge : ∀ ps ∈ strengths, ps.2.strength ≤ m := by
    intro ps hps
    exact hfmem _ (List.mem_map.2 ⟨ps, hps, rfl⟩)
  have hdecomp : ∀ {p : Player} {ps : Player × HandResult},
      (getFinalStrength p).map (fun s => (p, s)) = some ps →
      ps.1 = p ∧ getFinalStrength p = some ps.2 := by
    intro p ps hps
    rcases Option.map_eq_some'.1 hps with ⟨hr, hhr, hpr⟩
    rw [← hpr]
    exact ⟨rfl, hhr⟩
  refine ⟨rfl, m, (strengths.filter (fun ps => ps.2.strength = m)).map Prod.fst, rfl,
    ?_, ?_, ?_⟩
  · obtain ⟨ps, hps, hv⟩ := hattain
    obtain ⟨a, ha, hfa⟩ := mapOption_mem_right hmo hps
    obtain ⟨hps1, hps2⟩ := hdecomp hfa
    refine ⟨a, ha, ?_⟩
    rw [hps2, Option.map_some']
    simp [hv]
  · intro p hp
    obtain ⟨ps, hps, hfp⟩ := mapOption_mem_left hmo hp
    obtain ⟨hps1, hps2⟩ := hdecomp hfp
    exact ⟨ps.2.strength, by rw [hps2, Option.map_some'], hge ps hps⟩
  · intro q
    constructor
    · intro hq
      rcases List.mem_map.1 hq with ⟨ps, hpsf, hps1⟩
      have hpsmem := List.mem_filter.1 hpsf
      have hv : ps.2.strength = m := by simpa using hpsmem.2
      obtain ⟨a, ha, hfa⟩ := mapOption_mem_right hmo hpsmem.1
      obtain ⟨hpa, hstr⟩ := hdecomp hfa
      have haq : a = q := by rw [← hps1, hpa]
      subst haq
      refine ⟨ha, ?_⟩
      rw [hstr, Option.map_some', hv]
    · rintro ⟨hq, hstr⟩
      obtain ⟨ps, hps, hfp⟩ := mapOption_mem_left hmo hq
      obtain ⟨hps1, hps2⟩ := hdecomp hfp
      have hv : ps.2.strength = m := by
        rw [hps2, Option.map_some'] at hstr
        exact Option.some.inj hstr
      exact List.mem_map.2 ⟨ps, List.mem_filter.2 ⟨hps, by simpa using hv⟩, hps1⟩

/-- A small concrete two-player showdown state used by the C3 witness:
five cards each, all revealed. -/
def demoShowdown : GameState :=
  ⟨[⟨0, "a", [sampleCard .spades 2, sampleCard .hearts 4, sampleCard .diamonds 6,
      sampleCard .clubs 8, sampleCard .spades 10], [], []⟩,
    ⟨1, "b", [sampleCard .spades 14, sampleCard .hearts 14, sampleCard .diamonds 14,
      sampleCard .clubs 9, sampleCard .spades 5], [], []⟩],
   [], .showdown, 0, [], none, []⟩

/-- Witness for C3 at `demoShowdown`. -/
theorem determineWinner_spec_witness :
    ((determineWinner demoShowdown).getD demoShowdown).phase = Phase.finished ∧
    ∃ m w, ((determineWinner demoShowdown).getD demoShowdown).winner = some w ∧
      (∃ p ∈ demoShowdown.players, (getFinalStrength p).map HandResult.strength = some m) ∧
      (∀ p ∈ demoShowdown.players,
        ∃ v, (getFinalStrength p).map HandResult.strength = some v ∧ v ≤ m) ∧
      (∀ q, q ∈ w ↔ q ∈ demoShowdown.players ∧
        (getFinalStrength q).map HandResult.strength = some m) :=
  determineWinner_spec demoShowdown ((determineWinner demoShowdown).getD demoShowdown)
    rfl (by decide) (by decide)

/-! ### A full game always terminates in a finished state -/

/-- The invariant that keeps every strength computation alive: every
player has at least 5 door cards and holds at most 4 cards of any rank
over the whole card set. -/
def StateOk (s : GameState) : Prop :=
  ∀ p ∈ s.players, 5 ≤ p.doorCards.length ∧ ∀ r, rankCount (getAllCards p) r ≤ 4

theorem rankCount_le_of_sublist {l1 l2 : List Card} (h : l1.Sublist l2) (r : Nat) :
    rankCount l1 r ≤ rankCount l2 r :=
  (h.filter _).length_le

theorem bestOf_some :
    ∀ (xs : List HandResult) (b : HandResult), ∃ r, xs.foldl bestStep (some b) = some r
  | [], b => ⟨b, rfl⟩
  | x :: xs, b => by
    simp only [List.foldl_cons]
    by_cases hbx : b.strength < x.strength
    · rw [show bestStep (some b) x = some x from by simp [bestStep, hbx]]
      exact bestOf_some xs x
    · rw [show bestStep (some b) x = some b from by simp [bestStep, hbx]]
      exact bestOf_some xs b

theorem findBestHand_total (cards : List Card) (h5 : 5 ≤ cards.length)
    (hle : ∀ r, rankCount cards r ≤ 4) : ∃ res, findBestHand cards = some res := by
  have hnlt : ¬cards.length < 5 := Nat.not_lt.2 h5
  by_cases heq : cards.length = 5
  · obtain ⟨res, hres⟩ := evaluateHand_total cards heq (fun r _ => hle r)
    exact ⟨res, by simp [findBestHand, hnlt, heq, hres]⟩
  · have hall : ∀ sub ∈ combinations cards 5, ∃ b, evaluateHand sub = some b := by
      intro sub hsub
      obtain ⟨hs, hsl⟩ := combinations_sound cards 5 sub hsub
      exact evaluateHand_total sub hsl
        (fun r _ => le_trans (rankCount_le_of_sublist hs r) (hle r))
    obtain ⟨hands, hmo⟩ := mapOption_some_of_all hall
    have hcne : combinations cards 5 ≠ [] := combinations_ne_nil cards 5 h5
    have hhne : hands ≠ [] := by
      intro h0
      rw [h0] at hmo
      have := mapOption_length hmo
      exact hcne (List.length_eq_zero.1 (by simpa using this.symm))
    match hands, hhne with
    | x :: xs, _ =>
      obtain ⟨r, hr⟩ := bestOf_some xs x
      refine ⟨r, ?_⟩
      simp only [findBestHand, if_neg hnlt, if_neg heq, hmo]
      rw [bestOf_eq_foldl, List.foldl_cons, show bestStep none x = some x from rfl]
      exact hr

theorem getRevealedCards_sublist (p : Player) :
    (getRevealedCards p).Sublist (getAllCards p) := by
  simp only [getRevealedCards, getAllCards, ← List.append_assoc]
  exact List.sublist_append_left _ _

theorem getCurrentStrength_total (p : Player) (hdoor : 5 ≤ p.doorCards.length)
    (hcnt : ∀ r, rankCount (getAllCards p) r ≤ 4) :
    ∃ res, getCurrentStrength p = some res := by
  apply findBestHand_total
  · calc 5 ≤ p.doorCards.length := hdoor
      _ ≤ (getRevealedCards p).length := by simp [getRevealedCards]
  · intro r
    exact le_trans (rankCount_le_of_sublist (getRevealedCards_sublist p) r) (hcnt r)

theorem getFinalStrength_total (p : Player) (hdoor : 5 ≤ p.doorCards.length)
    (hcnt : ∀ r, rankCount (getAllCards p) r ≤ 4) :
    ∃ res, getFinalStrength p = some res := by
  apply findBestHand_total
  · calc 5 ≤ p.doorCards.length := hdoor
      _ ≤ (getAllCards p).length := by simp [getAllCards]
  · exact hcnt

theorem createDeck_rankCount (r : Nat) : rankCount createDeck r ≤ 4 := by
  rw [rankCount_eq_count]
  have hmap : createDeck.map Card.rank = allRanks ++ allRanks ++ allRanks ++ allRanks := by
    decide
  rw [hmap]
  simp only [List.count_append]
  have h1 : allRanks.count r ≤ 1 :=
    List.nodup_iff_count_le_one.1 (by decide) r
  omega

theorem deck_rankCount_le {deck : List Card} (hdeck : deck.Perm createDeck)
    {l : List Card} (hsub : l.Sublist deck) (r : Nat) : rankCount l r ≤ 4 := by
  calc rankCount l r ≤ rankCount deck r := rankCount_le_of_sublist hsub r
    _ = rankCount createDeck r := by
        unfold rankCount
        exact (hdeck.filter _).length_eq
    _ ≤ 4 := createDeck_rankCount r

theorem findWeakestPlayers_spec (players : List Player)
    (hok : ∀ p ∈ players, 5 ≤ p.doorCards.length ∧ ∀ r, rankCount (getAllCards p) r ≤ 4) :
    ∃ w, findWeakestPlayers players = some w ∧
      (w = [] ↔ players.filter (fun p => 0 < p.holeCards.length) = []) ∧
      (∀ q ∈ w, q ∈ players ∧ 0 < q.holeCards.length) := by
  by_cases hh : players.filter (fun p => 0 < p.holeCards.length) = []
  · refine ⟨[], ?_, by simp [hh], by simp⟩
    simp [findWeakestPlayers, hh]
  · have hlen0 : ¬(players.filter (fun p => 0 < p.holeCards.length)).length = 0 :=
      fun h0 => hh (List.length_eq_zero.1 h0)
    have hall : ∀ p ∈ players.filter (fun p => 0 < p.holeCards.length),
        ∃ ps, (getCurrentStrength p).map (fun s => (p, s)) = some ps := by
      intro p hp
      have hpm := List.mem_filter.1 hp
      obtain ⟨res, hres⟩ := getCurrentStrength_total p (hok p hpm.1).1 (hok p hpm.1).2
      exact ⟨(p, res), by rw [hres]; rfl⟩
    obtain ⟨strengths, hmo⟩ := mapOption_some_of_all hall
    rcases hs0 : strengths[0]? with _ | s0
    · exfalso
      have := List.getElem?_eq_none_iff.1 hs0
      have hlen := mapOption_length hmo
      omega
    set m := strengths.foldl (fun m ps => if ps.2.strength < m then ps.2.strength else m)
      s0.2.strength with hm
    have hfold := foldMin_facts (strengths.map (fun ps => ps.2.strength)) s0.2.strength
    rw [List.foldl_map] at hfold
    have hs0mem : s0 ∈ strengths := by
      obtain ⟨hlt, hg⟩ := List.getElem?_eq_some.1 hs0
      exact hg ▸ List.getElem_mem hlt
    have hattain : ∃ ps ∈ strengths, ps.2.strength = m := by
      rcases hfold.2.2 with h | h
      · exact ⟨s0, hs0mem, h.symm⟩
      · rcases List.mem_map.1 h with ⟨ps, hps, hv⟩
        exact ⟨ps, hps, hv⟩
    have hdecomp : ∀ {p : Player} {ps : Player × HandResult},
        (getCurrentStrength p).map (fun s => (p, s)) = some ps →
        ps.1 = p ∧ getCurrentStrength p = some ps.2 := by
      intro p ps hps
      rcases Option.map_eq_some'.1 hps with ⟨hr, hhr, hpr⟩
      rw [← hpr]
      exact ⟨rfl, hhr⟩
    have hwne : (strengths.filter (fun ps => ps.2.strength = m)).map Prod.fst ≠ [] := by
      obtain ⟨ps, hps, hv⟩ := hattain
      have : ps ∈ strengths.filter (fun ps => decide (ps.2.strength = m)) :=
        List.mem_filter.2 ⟨hps, by simp [hv]⟩
      simp only [ne_eq, List.map_eq_nil_iff]
      exact List.ne_nil_of_mem this
    refine ⟨(strengths.filter (fun ps => ps.2.strength = m)).map Prod.fst, ?_, ?_, ?_⟩
    · simp only [findWeakestPlayers, if_neg hlen0, hmo, hs0]
    · exact ⟨fun hw => absurd hw hwne, fun hf => absurd hf hh⟩
    · intro q hq
      rcases List.mem_map.1 hq with ⟨ps, hpsf, hps1⟩
      have hpsmem := List.mem_filter.1 hpsf
      obtain ⟨a, ha, hfa⟩ := mapOption_mem_right hmo hpsmem.1
      obtain ⟨hpa, _⟩ := hdecomp hfa
      have haq : a = q := by rw [← hps1, hpa]
      subst haq
      have hamem := List.mem_filter.1 ha
      exact ⟨hamem.1, by simpa using hamem.2⟩

theorem getAllCards_move {p : Player} {c : Card} {rest : List Card}
    (hh : p.holeCards = c :: rest) :
    getAllCards
      { p with holeCards := rest, revealedHoleCards := p.revealedHoleCards ++ [c] } =
      getAllCards p := by
  simp [getAllCards, hh, List.append_assoc]

theorem processRevealRound_ok (s : GameState) (hph : s.phase = Phase.revealing)
    (hok : StateOk s) :
    ∃ s2, processRevealRound s = some s2 ∧ StateOk s2 ∧
      s2.players.length = s.players.length ∧
      (s2.phase = Phase.revealing ∨ s2.phase = Phase.showdown) ∧
      (0 < totalHoleCards s → totalHoleCards s2 < totalHoleCards s) ∧
      (totalHoleCards s = 0 → s2.phase = Phase.showdown) := by
  obtain ⟨w, hw, hwiff, hwmem⟩ := findWeakestPlayers_spec s.players hok
  by_cases hwe : w = []
  · subst hwe
    have hholders := hwiff.1 rfl
    have htotal0 : totalHoleCards s = 0 := by
      unfold totalHoleCards
      apply List.sum_eq_zero
      intro x hx
      rcases List.mem_map.1 hx with ⟨p, hp, rfl⟩
      by_contra hxne
      have hmem : p ∈ s.players.filter (fun p => 0 < p.holeCards.length) :=
        List.mem_filter.2 ⟨hp, by simpa using Nat.pos_of_ne_zero hxne⟩
      rw [hholders] at hmem
      simp at hmem
    refine ⟨{ s with phase := Phase.showdown }, ?_, ?_, rfl, Or.inr rfl, ?_, fun _ => rfl⟩
    · simp [processRevealRound, hph, hw]
    · intro p hp
      exact hok p hp
    · intro hpos
      omega
  · have hwlen : ¬w.length = 0 := fun h0 => hwe (List.length_eq_zero.1 h0)
    obtain ⟨wp, hwp⟩ := List.exists_mem_of_ne_nil w hwe
    obtain ⟨hwpmem, hwphole⟩ := hwmem wp hwp
    have hg : ∀ p : Player,
        ((if w.any (fun wp => wp.id = p.id) then
            match p.holeCards with
            | [] => p
            | card :: rest =>
              { p with holeCards := rest,
                       revealedHoleCards := p.revealedHoleCards ++ [card] }
          else p).doorCards = p.doorCards) ∧
        (getAllCards (if w.any (fun wp => wp.id = p.id) then
            match p.holeCards with
            | [] => p
            | card :: rest =>
              { p with holeCards := rest,
                       revealedHoleCards := p.revealedHoleCards ++ [card] }
          else p) = getAllCards p) ∧
        ((if w.any (fun wp => wp.id = p.id) then
            match p.holeCards with
            | [] => p
            | card :: rest =>
              { p with holeCards := rest,
                       revealedHoleCards := p.revealedHoleCards ++ [card] }
          else p).holeCards.length ≤ p.holeCards.length) := by
      intro p
      by_cases hc : w.any (fun wp => wp.id = p.id)
      · rw [if_pos hc]
        rcases hh : p.holeCards with _ | ⟨card, rest⟩
        · simp [hh]
        · simp only [hh]
          refine ⟨trivial, getAllCards_move hh, by simp⟩
      · rw [if_neg hc]
        exact ⟨rfl, rfl, le_refl _⟩

    rcases hrun : processRevealRound s with _ | s2
    · exfalso
      simp only [processRevealRound, hph, ne_eq, not_true_eq_false, if_false, hw] at hrun
      rw [if_neg hwlen] at hrun
      exact Option.noConfusion hrun
    have hrun2 := hrun
    simp only [processRevealRound, hph, ne_eq, not_true_eq_false, if_false, hw] at hrun2
    rw [if_neg hwlen] at hrun2
    rcases Option.some.inj hrun2 with rfl
    refine ⟨_, rfl, ?_, ?_, ?_, ?_, ?_⟩
    · intro p2 hp2
      rcases List.mem_map.1 hp2 with ⟨p, hp, rfl⟩
      obtain ⟨hd, ha, _⟩ := hg p
      rw [hd, ha]
      exact hok p hp
    · simp
    · simp only []
      split
      · exact Or.inr rfl
      · exact Or.inl rfl
    · intro _
      unfold totalHoleCards
      simp only [List.map_map]
      apply List.sum_lt_sum
      · intro p hp
        exact (hg p).2.2
      · refine ⟨wp, hwpmem, ?_⟩
        simp only [Function.comp_apply]
        have hcw : w.any (fun q => q.id = wp.id) = true :=
          List.any_eq_true.2 ⟨wp, hwp, by simp⟩
        rw [if_pos hcw]
        rcases hh : wp.holeCards with _ | ⟨card, rest⟩
        · rw [hh] at hwphole
          simp at hwphole
        · simp only [hh]
          simp
    · intro h0
      exfalso
      have : wp.holeCards.length ≤ totalHoleCards s := by
        apply List.single_le_sum (fun x _ => Nat.zero_le x)
        exact List.mem_map.2 ⟨wp, hwpmem, rfl⟩
      omega

theorem runRevealLoop_nonrevealing (fuel : Nat) (s : GameState)
    (h : ¬s.phase = Phase.revealing) : runRevealLoop fuel s = some s := by
  cases fuel <;> simp [runRevealLoop, h]

theorem runRevealLoop_ok :
    ∀ (fuel : Nat) (s : GameState), StateOk s → totalHoleCards s < fuel →
      ∃ s2, runRevealLoop fuel s = some s2 ∧ StateOk s2 ∧
        s2.players.length = s.players.length ∧ ¬s2.phase = Phase.revealing ∧
        (s.phase = Phase.revealing → s2.phase = Phase.showdown)
  | 0, s, _, hf => by omega
  | fuel + 1, s, hok, hf => by
    by_cases hph : s.phase = Phase.revealing
    · obtain ⟨s2, hrun, hok2, hlen2, hph2, hdec, h0⟩ := processRevealRound_ok s hph hok
      have hstep : runRevealLoop (fuel + 1) s = runRevealLoop fuel s2 := by
        simp [runRevealLoop, hph, hrun]
      rcases hph2 with h2 | h2
      · have hpos : 0 < totalHoleCards s := by
          by_contra hc
          have hz := h0 (by omega)
          rw [hz] at h2
          exact Phase.noConfusion h2
        have hlt : totalHoleCards s2 < totalHoleCards s := hdec hpos
        obtain ⟨s3, hrun3, hok3, hlen3, hnrev3, hto3⟩ :=
          runRevealLoop_ok fuel s2 hok2 (by omega)
        exact ⟨s3, by rw [hstep]; exact hrun3, hok3, by rw [hlen3, hlen2],
          hnrev3, fun _ => hto3 h2⟩
      · have hret : runRevealLoop fuel s2 = some s2 :=
          runRevealLoop_nonrevealing fuel s2 (by rw [h2]; simp)
        exact ⟨s2, by rw [hstep]; exact hret, hok2, hlen2, by rw [h2]; simp,
          fun _ => h2⟩
    · exact ⟨s, runRevealLoop_nonrevealing _ s hph, hok, rfl, hph,
        fun h => absurd h hph⟩

theorem determineWinner_total (s : GameState) (hph : s.phase = Phase.showdown)
    (hok : StateOk s) (hne : s.players ≠ []) :
    ∃ s2, determineWinner s = some s2 ∧ s2.phase = Phase.finished ∧
      ∃ w, s2.winner = some w ∧ w ≠ [] := by
  have hall : ∀ p ∈ s.players, ∃ ps, (getFinalStrength p).map (fun st => (p, st)) = some ps := by
    intro p hp
    obtain ⟨res, hres⟩ := getFinalStrength_total p (hok p hp).1 (hok p hp).2
    exact ⟨(p, res), by rw [hres]; rfl⟩
  obtain ⟨strengths, hmo⟩ := mapOption_some_of_all hall
  rcases hs0 : strengths[0]? with _ | s0
  · exfalso
    have := List.getElem?_eq_none_iff.1 hs0
    have hlen := mapOption_length hmo
    have : s.players.length = 0 := by omega
    exact hne (List.length_eq_zero.1 this)
  set m := strengths.foldl (fun m ps => if m < ps.2.strength then ps.2.strength else m)
    s0.2.strength with hm
  have hfold := foldMax_facts (strengths.map (fun ps => ps.2.strength)) s0.2.strength
  rw [List.foldl_map] at hfold
  have hs0mem : s0 ∈ strengths := by
    obtain ⟨hlt, hg⟩ := List.getElem?_eq_some.1 hs0
    exact hg ▸ List.getElem_mem hlt
  have hattain : ∃ ps ∈ strengths, ps.2.strength = m := by
    rcases hfold.2.2 with h | h
    · exact ⟨s0, hs0mem, h.symm⟩
    · rcases List.mem_map.1 h with ⟨ps, hps, hv⟩
      exact ⟨ps, hps, hv⟩
  have hwne : (strengths.filter (fun ps => ps.2.strength = m)).map Prod.fst ≠ [] := by
    obtain ⟨ps, hps, hv⟩ := hattain
    have : ps ∈ strengths.filter (fun ps => decide (ps.2.strength = m)) :=
      List.mem_filter.2 ⟨hps, by simp [hv]⟩
    simp only [ne_eq, List.map_eq_nil_iff]
    exact List.ne_nil_of_mem this
  rcases hrun : determineWinner s with _ | s2
  · exfalso
    simp only [determineWinner, hph, ne_eq, not_true_eq_false, if_false, hmo, hs0] at hrun
    exact Option.noConfusion hrun
  have hrun2 := hrun
  simp only [determineWinner, hph, ne_eq, not_true_eq_false, if_false, hmo, hs0] at hrun2
  rcases Option.some.inj hrun2 with rfl
  exact ⟨_, rfl, rfl, (strengths.filter (fun ps => ps.2.strength = m)).map Prod.fst,
    rfl, hwne⟩

theorem config_facts (d : Difficulty) :
    5 ≤ (DIFFICULTY_CONFIGS d).doorCards ∧
    (DIFFICULTY_CONFIGS d).doorCards + (DIFFICULTY_CONFIGS d).holeCards ≤ 10 := by
  cases d <;> exact ⟨by decide, by decide⟩

theorem dealSeats_ok :
    ∀ (names : List (Nat × String)) (deck : List Card) (difficulty : Difficulty),
      10 * names.length ≤ deck.length →
      (dealSeats deck names difficulty).1.length = names.length ∧
      ∀ p ∈ (dealSeats deck names difficulty).1,
        5 ≤ p.doorCards.length ∧ (getAllCards p).Sublist deck
  | [], deck, d, _ => ⟨rfl, by simp [dealSeats]⟩
  | (i, name) :: rest, deck, d, h => by
    have hc : 5 ≤ (if i = 0 then DIFFICULTY_CONFIGS d else DIFFICULTY_CONFIGS .normal).doorCards ∧
        (if i = 0 then DIFFICULTY_CONFIGS d else DIFFICULTY_CONFIGS .normal).doorCards +
          (if i = 0 then DIFFICULTY_CONFIGS d else DIFFICULTY_CONFIGS .normal).holeCards ≤ 10 := by
      split <;> exact config_facts _
    have hrestlen : 10 * rest.length ≤
        ((deck.drop (if i = 0 then DIFFICULTY_CONFIGS d
          else DIFFICULTY_CONFIGS .normal).doorCards).drop
          (if i = 0 then DIFFICULTY_CONFIGS d
            else DIFFICULTY_CONFIGS .normal).holeCards).length := by
      simp only [List.length_drop, List.length_cons] at h ⊢
      omega
    obtain ⟨ihlen, ihmem⟩ := dealSeats_ok rest _ d hrestlen
    simp only [dealSeats, List.length_cons]
    refine ⟨by rw [ihlen], ?_⟩
    intro p hp
    rcases List.mem_cons.1 hp with rfl | hp2
    · constructor
      · simp only [List.length_take, List.length_cons] at h ⊢
        omega
      · have hall : getAllCards
            ⟨i, name, deck.take (if i = 0 then DIFFICULTY_CONFIGS d
              else DIFFICULTY_CONFIGS .normal).doorCards,
             (deck.drop (if i = 0 then DIFFICULTY_CONFIGS d
              else DIFFICULTY_CONFIGS .normal).doorCards).take
              (if i = 0 then DIFFICULTY_CONFIGS d
                else DIFFICULTY_CONFIGS .normal).holeCards, []⟩ =
            deck.take ((if i = 0 then DIFFICULTY_CONFIGS d
              else DIFFICULTY_CONFIGS .normal).doorCards +
              (if i = 0 then DIFFICULTY_CONFIGS d
                else DIFFICULTY_CONFIGS .normal).holeCards) := by
          simp [getAllCards, List.take_add]
        rw [hall]
        exact List.take_sublist _ _
    · obtain ⟨hd, hsub⟩ := ihmem p hp2
      exact ⟨hd, hsub.trans ((List.drop_sublist _ _).trans (List.drop_sublist _ _))⟩

theorem initializeGame_ok (names : List String) (difficulty : Difficulty)
    (deck : List Card) (hdeck : deck.Perm createDeck)
    (h2 : 2 ≤ names.length) (h5 : names.length ≤ 5) :
    ∃ s0, initializeGame names difficulty deck = some s0 ∧ StateOk s0 ∧
      s0.phase = Phase.revealing ∧ s0.players.length = names.length := by
  have hcond : ¬(names.length < 2 ∨ 5 < names.length) := by omega
  have hdlen : deck.length = 52 := by
    rw [hdeck.length_eq]
    decide
  have hbud : 10 * names.enum.length ≤ deck.length := by
    rw [List.enum_length, hdlen]
    omega
  obtain ⟨hlen, hplayers⟩ := dealSeats_ok names.enum deck difficulty hbud
  refine ⟨⟨(dealSeats deck names.enum difficulty).1, (dealSeats deck names.enum difficulty).2,
    Phase.revealing, 0, [], none, []⟩, ?_, ?_, rfl, ?_⟩
  · simp [initializeGame, hcond]
  · intro p hp
    obtain ⟨hd, hsub⟩ := hplayers p hp
    exact ⟨hd, fun r => deck_rankCount_le hdeck hsub r⟩
  · rw [show (⟨(dealSeats deck names.enum difficulty).1,
      (dealSeats deck names.enum difficulty).2,
      Phase.revealing, 0, [], none, []⟩ : GameState).players =
      (dealSeats deck names.enum difficulty).1 from rfl, hlen, List.enum_length]

/-- Claim C4: from initializeGame with 2 to 5 players and a shuffled
standard deck, the full game run (processRevealRound while revealing, then
determineWinner) terminates in phase finished with a non-empty winner
list; moreover each reveal round performed while hidden cards remain
strictly decreases the total number of hidden hole cards, so the
revealing loop cannot run forever (totalHoleCards + 1 fuel suffices). -/
theorem runFullGame_reaches_finished (names : List String) (difficulty : Difficulty)
    (deck : List Card) (hdeck : deck.Perm createDeck)
    (h2 : 2 ≤ names.length) (h5 : names.length ≤ 5) :
    (∃ s0 sf, initializeGame names difficulty deck = some s0 ∧ runFullGame s0 = some sf ∧
      sf.phase = Phase.finished ∧ ∃ w, sf.winner = some w ∧ w ≠ []) ∧
    (∀ s s2, StateOk s → s.phase = Phase.revealing → processRevealRound s = some s2 →
      0 < totalHoleCards s → totalHoleCards s2 < totalHoleCards s) := by
  constructor
  · obtain ⟨s0, hinit, hok0, hph0, hlen0⟩ :=
      initializeGame_ok names difficulty deck hdeck h2 h5
    obtain ⟨s2, hloop, hok2, hlen2, hnrev2, hsd2⟩ :=
      runRevealLoop_ok (totalHoleCards s0 + 1) s0 hok0 (by omega)
    have hph2 : s2.phase = Phase.showdown := hsd2 hph0
    have hne2 : s2.players ≠ [] := by
      intro h0
      rw [h0] at hlen2
      simp only [List.length_nil] at hlen2
      omega
    obtain ⟨s3, hwin, hph3, w, hw, hwne⟩ := determineWinner_total s2 hph2 hok2 hne2
    refine ⟨s0, s3, hinit, ?_, hph3, w, hw, hwne⟩
    unfold runFullGame
    rw [hloop]
    simp only []
    rw [if_pos hph2]
    exact hwin
  · intro s s2 hok hph hrun hpos
    obtain ⟨s2b, hrun2, _, _, _, hdec, _⟩ := processRevealRound_ok s hph hok
    rw [hrun] at hrun2
    rcases Option.some.inj hrun2 with rfl
    exact hdec hpos

/-- Witness for C4 at a concrete two-player game dealt from the unshuffled
standard deck. -/
theorem runFullGame_reaches_finished_witness :
    (∃ s0 sf, initializeGame ["a", "b"] Difficulty.normal createDeck = some s0 ∧
      runFullGame s0 = some sf ∧
      sf.phase = Phase.finished ∧ ∃ w, sf.winner = some w ∧ w ≠ []) ∧
    (∀ s s2, StateOk s → s.phase = Phase.revealing → processRevealRound s = some s2 →
      0 < totalHoleCards s → totalHoleCards s2 < totalHoleCards s) :=
  runFullGame_reaches_finished ["a", "b"] Difficulty.normal createDeck
    (List.Perm.refl _) (by decide) (by decide)

/-! ### C8: card conservation across the game transitions -/

/-- One transition of the game state machine: a successful run of
startRevealRound, processRevealRound or determineWinner, or any call of
the total function revealSelectedCard. -/
inductive GameStep : GameState → GameState → Prop
  | start {s s2 : GameState} : startRevealRound s = some s2 → GameStep s s2
  | reveal (playerId : Nat) (cardId : String) {s : GameState} :
      GameStep s (revealSelectedCard s playerId cardId)
  | process {s s2 : GameState} : processRevealRound s = some s2 → GameStep s s2
  | winner {s s2 : GameState} : determineWinner s = some s2 → GameStep s s2

/-- States reachable from a freshly dealt game (any permutation of the
standard deck) by the transition functions. -/
inductive Reachable : GameState → Prop
  | init (names : List String) (difficulty : Difficulty) (deck : List Card)
      {s : GameState} : deck.Perm createDeck →
      initializeGame names difficulty deck = some s → Reachable s
  | step {s s2 : GameState} : Reachable s → GameStep s s2 → Reachable s2

/-- Per-player effect of one transition: same id, same door cards, and at
most one hole card moved (appended) to the revealed pile. -/
def RevealStep (p q : Player) : Prop :=
  q.id = p.id ∧ q.doorCards = p.doorCards ∧
  ∃ mv : List Card, mv.length ≤ 1 ∧
    q.revealedHoleCards = p.revealedHoleCards ++ mv ∧
    p.holeCards.Perm (mv ++ q.holeCards)

/-- Accumulated per-player conservation relative to deal time: door cards
unchanged, hidden plus revealed hole cards the same multiset. -/
def Conserved (p0 p : Player) : Prop :=
  p.id = p0.id ∧ p.doorCards = p0.doorCards ∧
  (p.holeCards ++ p.revealedHoleCards).Perm (p0.holeCards ++ p0.revealedHoleCards)

/-- No player holds two cards with the same id. -/
def CardsNodup (s : GameState) : Prop :=
  ∀ p ∈ s.players, ((getAllCards p).map Card.id).Nodup

theorem revealStep_refl (p : Player) : RevealStep p p :=
  ⟨rfl, rfl, [], by simp, by simp, by simp⟩

theorem conserved_refl (p : Player) : Conserved p p :=
  ⟨rfl, rfl, List.Perm.refl _⟩

theorem forall₂_revealStep_refl (l : List Player) : List.Forall₂ RevealStep l l :=
  List.forall₂_same.2 (fun p _ => revealStep_refl p)

theorem revealStep_cards_perm {p q : Player} (h : RevealStep p q) :
    (q.holeCards ++ q.revealedHoleCards).Perm (p.holeCards ++ p.revealedHoleCards) := by
  obtain ⟨-, -, mv, -, hrev, hperm⟩ := h
  rw [hrev, ← List.append_assoc]
  refine List.perm_append_comm.trans ?_
  rw [← List.append_assoc]
  exact (hperm.append_right _).symm

theorem conserved_step {p0 p q : Player} (h1 : Conserved p0 p) (h2 : RevealStep p q) :
    Conserved p0 q :=
  ⟨h2.1.trans h1.1, h2.2.1.trans h1.2.1, (revealStep_cards_perm h2).trans h1.2.2⟩

theorem getAllCards_perm_of_revealStep {p q : Player} (h : RevealStep p q) :
    (getAllCards q).Perm (getAllCards p) := by
  unfold getAllCards
  rw [h.2.1, List.append_assoc, List.append_assoc]
  exact List.Perm.append_left _
    (List.perm_append_comm.trans ((revealStep_cards_perm h).trans List.perm_append_comm))

theorem forall₂_mem_right {α β : Type} {R : α → β → Prop} {l1 : List α} {l2 : List β}
    (h : List.Forall₂ R l1 l2) {b : β} (hb : b ∈ l2) : ∃ a ∈ l1, R a b := by
  induction h with
  | nil => simp at hb
  | cons hR hF ih =>
    rcases List.mem_cons.1 hb with rfl | hb2
    · exact ⟨_, List.mem_cons_self _ _, hR⟩
    · obtain ⟨a, ha, hab⟩ := ih hb2
      exact ⟨a, List.mem_cons_of_mem _ ha, hab⟩

theorem cardsNodup_step {s s2 : GameState}
    (hf : List.Forall₂ RevealStep s.players s2.players) (hnd : CardsNodup s) :
    CardsNodup s2 := by
  intro q hq
  obtain ⟨p, hp, hstep⟩ := forall₂_mem_right hf hq
  exact (((getAllCards_perm_of_revealStep hstep).map Card.id).nodup_iff).2 (hnd p hp)

theorem forall₂_conserved_comp {l0 l1 : List Player}
    (h01 : List.Forall₂ Conserved l0 l1) :
    ∀ {l2 : List Player}, List.Forall₂ RevealStep l1 l2 →
      List.Forall₂ Conserved l0 l2 := by
  induction h01 with
  | nil =>
    intro l2 h12
    cases h12
    exact List.Forall₂.nil
  | cons hR hF ih =>
    intro l2 h12
    cases h12 with
    | cons hR2 hF2 => exact List.Forall₂.cons (conserved_step hR hR2) (ih hF2)

theorem forall₂_set {α : Type} {R : α → α → Prop} (hrefl : ∀ a, R a a) :
    ∀ (l : List α) (i : Nat) (b : α), (∀ a, l[i]? = some a → R a b) →
      List.Forall₂ R l (l.set i b)
  | [], i, b, _ => by
    rw [show List.set ([] : List α) i b = [] from rfl]
    exact List.Forall₂.nil
  | a :: t, 0, b, h => by
    rw [List.set_cons_zero]
    exact List.Forall₂.cons (h a (by simp)) (List.forall₂_same.2 (fun x _ => hrefl x))
  | a :: t, i + 1, b, h => by
    rw [List.set_cons_succ]
    exact List.Forall₂.cons (hrefl a)
      (forall₂_set hrefl t i b (fun x hx => h x (by simpa using hx)))

theorem forall₂_revealStep_map (l : List Player) (g : Player → Player)
    (hg : ∀ p ∈ l, RevealStep p (g p)) : List.Forall₂ RevealStep l (l.map g) := by
  induction l with
  | nil => exact List.Forall₂.nil
  | cons p t ih =>
    exact List.Forall₂.cons (hg p (List.mem_cons_self p t))
      (ih (fun q hq => hg q (List.mem_cons_of_mem p hq)))

theorem find_filter_perm (cardId : String) :
    ∀ (l : List Card) (c : Card),
      l.find? (fun x => decide (x.id = cardId)) = some c →
      (l.map Card.id).Nodup →
      l.Perm (c :: l.filter (fun x => ¬x.id = cardId))
  | [], c, hf, _ => by simp [List.find?] at hf
  | x :: t, c, hf, hnd => by
    rw [List.map_cons] at hnd
    have hnd2 := List.nodup_cons.1 hnd
    rw [List.find?_cons] at hf
    by_cases hx : x.id = cardId
    · rw [decide_eq_true hx] at hf
      simp only [] at hf
      rcases Option.some.inj hf with rfl
      rw [List.filter_cons, if_neg (by simp [hx])]
      have ht : t.filter (fun y => (decide ¬(y.id = cardId))) = t := by
        apply List.filter_eq_self.2
        intro y hy
        have hyne : ¬y.id = cardId := by
          intro hyid
          exact hnd2.1 (List.mem_map.2 ⟨y, hy, by rw [hyid, hx]⟩)
        exact decide_eq_true hyne
      rw [ht]
    · rw [decide_eq_false hx] at hf
      simp only [] at hf
      have ih := find_filter_perm cardId t c hf hnd2.2
      rw [List.filter_cons, if_pos (decide_eq_true hx)]
      exact (ih.cons x).trans (List.Perm.swap c x _)

theorem startRevealRound_players {s s2 : GameState}
    (h : startRevealRound s = some s2) : s2.players = s.players := by
  by_cases hph : s.phase = Phase.revealing
  case neg =>
    rw [show startRevealRound s = some s from by simp [startRevealRound, hph]] at h
    rw [← Option.some.inj h]
  case pos =>
  rcases hw : findWeakestPlayers s.players with _ | w
  · rw [show startRevealRound s = none from by simp [startRevealRound, hph, hw]] at h
    exact Option.noConfusion h
  · by_cases hwe : w.length = 0
    · rw [show startRevealRound s =
          some { s with phase := Phase.showdown, waitingForPlayers := [] } from by
        simp [startRevealRound, hph, hw, hwe]] at h
      rw [← Option.some.inj h]
    · rw [show startRevealRound s = some { s with waitingForPlayers := w.map Player.id }
          from by simp [startRevealRound, hph, hw, hwe]] at h
      rw [← Option.some.inj h]

theorem determineWinner_players {s s2 : GameState}
    (h : determineWinner s = some s2) : s2.players = s.players := by
  by_cases hph : s.phase = Phase.showdown
  case neg =>
    rw [show determineWinner s = some s from by simp [determineWinner, hph]] at h
    rw [← Option.some.inj h]
  case pos =>
  rcases hmo : mapOption (fun p => (getFinalStrength p).map (fun st => (p, st))) s.players
      with _ | fs
  · have h2 := h
    simp only [determineWinner, hph, ne_eq, not_true_eq_false, if_false, hmo] at h2
    exact Option.noConfusion h2
  · rcases h0 : fs[0]? with _ | s0
    · have h2 := h
      simp only [determineWinner, hph, ne_eq, not_true_eq_false, if_false, hmo, h0] at h2
      exact Option.noConfusion h2
    · have h2 := h
      simp only [determineWinner, hph, ne_eq, not_true_eq_false, if_false, hmo, h0] at h2
      rw [← Option.some.inj h2]

theorem processRevealRound_forall₂ {s s2 : GameState}
    (h : processRevealRound s = some s2) :
    List.Forall₂ RevealStep s.players s2.players := by
  by_cases hph : s.phase = Phase.revealing
  case neg =>
    rw [show processRevealRound s = some s from by simp [processRevealRound, hph]] at h
    rw [← Option.some.inj h]
    exact forall₂_revealStep_refl _
  case pos =>
  rcases hw : findWeakestPlayers s.players with _ | w
  · rw [show processRevealRound s = none from by simp [processRevealRound, hph, hw]] at h
    exact Option.noConfusion h
  by_cases hwe : w.length = 0
  · rw [show processRevealRound s = some { s with phase := Phase.showdown } from by
      simp [processRevealRound, hph, hw, hwe]] at h
    rw [← Option.some.inj h]
    exact forall₂_revealStep_refl _
  · have hg : ∀ p ∈ s.players, RevealStep p
        (if w.any (fun wp => wp.id = p.id) then
          match p.holeCards with
          | [] => p
          | card :: rest =>
            { p with holeCards := rest,
                     revealedHoleCards := p.revealedHoleCards ++ [card] }
        else p) := by
      intro p _
      by_cases hc : w.any (fun wp => wp.id = p.id)
      · rw [if_pos hc]
        rcases hh : p.holeCards with _ | ⟨card, rest⟩
        · simp only [hh]
          exact revealStep_refl p
        · simp only [hh]
          exact ⟨rfl, rfl, [card], by simp, rfl, by rw [hh]; exact List.Perm.refl _⟩
      · rw [if_neg hc]
        exact revealStep_refl p
    have h2 := h
    simp only [processRevealRound, hph, ne_eq, not_true_eq_false, if_false, hw] at h2
    rw [if_neg hwe] at h2
    rcases Option.some.inj h2 with rfl
    exact forall₂_revealStep_map s.players _ hg

theorem revealSelectedCard_forall₂ (s : GameState) (playerId : Nat) (cardId : String)
    (hnd : CardsNodup s) :
    List.Forall₂ RevealStep s.players (revealSelectedCard s playerId cardId).players := by
  by_cases hph : s.phase = Phase.revealing
  case neg =>
    rw [show revealSelectedCard s playerId cardId = s from by
      simp [revealSelectedCard, hph]]
    exact forall₂_revealStep_refl _
  case pos =>
  by_cases hwait : playerId ∈ s.waitingForPlayers
  case neg =>
    rw [show revealSelectedCard s playerId cardId = s from by
      simp [revealSelectedCard, hph, hwait]]
    exact forall₂_revealStep_refl _
  case pos =>
  rcases hidx : s.players.findIdx? (fun p => decide (p.id = playerId)) with _ | idx
  · rw [show revealSelectedCard s playerId cardId = s from by
      simp [revealSelectedCard, hph, hwait, hidx]]
    exact forall₂_revealStep_refl _
  rcases hp : s.players[idx]? with _ | player
  · rw [show revealSelectedCard s playerId cardId = s from by
      simp [revealSelectedCard, hph, hwait, hidx, hp]]
    exact forall₂_revealStep_refl _
  rcases hfind : player.holeCards.find? (fun c => decide (c.id = cardId)) with _ | card
  · rw [show revealSelectedCard s playerId cardId = s from by
      simp [revealSelectedCard, hph, hwait, hidx, hp, hfind]]
    exact forall₂_revealStep_refl _
  have hpmem : player ∈ s.players := by
    obtain ⟨hlt, hg⟩ := List.getElem?_eq_some.1 hp
    exact hg ▸ List.getElem_mem hlt
  have hhnd : (player.holeCards.map Card.id).Nodup := by
    have hsub : player.holeCards.Sublist (getAllCards player) :=
      List.sublist_append_right _ _
    exact List.Nodup.sublist (hsub.map Card.id) (hnd player hpmem)
  have hstep : RevealStep player
      { player with holeCards := player.holeCards.filter (fun c => ¬c.id = cardId),
                    revealedHoleCards := player.revealedHoleCards ++ [card] } :=
    ⟨rfl, rfl, [card], by simp, rfl,
      find_filter_perm cardId player.holeCards card hfind hhnd⟩
  have hkey : List.Forall₂ RevealStep s.players
      (s.players.set idx { player with
        holeCards := player.holeCards.filter (fun c => ¬c.id = cardId),
        revealedHoleCards := player.revealedHoleCards ++ [card] }) :=
    forall₂_set revealStep_refl s.players idx _ (fun a ha => by
      rw [hp] at ha
      rcases Option.some.inj ha with rfl
      exact hstep)
  have hres : (revealSelectedCard s playerId cardId).players =
      s.players.set idx { player with
        holeCards := player.holeCards.filter (fun c => ¬c.id = cardId),
        revealedHoleCards := player.revealedHoleCards ++ [card] } := by
    unfold revealSelectedCard
    rw [if_neg (fun hn => hn hph), if_neg (fun hn => hn hwait), hidx]
    simp only []
    rw [hp]
    simp only []
    rw [hfind]
    simp only []
    by_cases hwl : (s.waitingForPlayers.filter (fun i => ¬i = playerId)).length = 0
    · rw [if_pos hwl]
    · rw [if_neg hwl]
  rw [hres]
  exact hkey

theorem gameStep_forall₂ {s s2 : GameState} (h : GameStep s s2) (hnd : CardsNodup s) :
    List.Forall₂ RevealStep s.players s2.players := by
  cases h with
  | start hrun =>
    rw [startRevealRound_players hrun]
    exact forall₂_revealStep_refl _
  | reveal playerId cardId => exact revealSelectedCard_forall₂ s playerId cardId hnd
  | process hrun => exact processRevealRound_forall₂ hrun
  | winner hrun =>
    rw [determineWinner_players hrun]
    exact forall₂_revealStep_refl _

theorem reachable_invariant {s : GameState} (h : Reachable s) :
    CardsNodup s ∧ ∃ s0 : GameState,
      (∃ names difficulty deck, deck.Perm createDeck ∧
        initializeGame names difficulty deck = some s0) ∧
      List.Forall₂ Conserved s0.players s.players := by
  induction h with
  | init names difficulty deck hdeck hinit =>
    constructor
    · intro p hp
      have hguard : ¬(names.length < 2 ∨ 5 < names.length) := by
        intro hcond
        have h2 := hinit
        rw [show initializeGame names difficulty deck = none from by
          simp [initializeGame, hcond]] at h2
        exact Option.noConfusion h2
      have hdlen : deck.length = 52 := by
        rw [hdeck.length_eq]
        decide
      have hbud : 10 * names.enum.length ≤ deck.length := by
        rw [List.enum_length, hdlen]
        push_neg at hguard
        omega
      obtain ⟨hlen, hplayers⟩ := dealSeats_ok names.enum deck difficulty hbud
      have h2 := hinit
      rw [show initializeGame names difficulty deck =
          some ⟨(dealSeats deck names.enum difficulty).1,
            (dealSeats deck names.enum difficulty).2,
            Phase.revealing, 0, [], none, []⟩ from by
        simp [initializeGame, hguard]] at h2
      rcases Option.some.inj h2 with rfl
      have hp2 : p ∈ (dealSeats deck names.enum difficulty).1 := hp
      have hsub := (hplayers p hp2).2
      have hdn : (deck.map Card.id).Nodup :=
        ((hdeck.map Card.id).nodup_iff).2 (by decide)
      exact List.Nodup.sublist (hsub.map Card.id) hdn
    · exact ⟨_, ⟨names, difficulty, deck, hdeck, hinit⟩,
        List.forall₂_same.2 (fun p _ => conserved_refl p)⟩
  | step hreach hstep ih =>
    obtain ⟨hnd, s0, hinit0, hcons⟩ := ih
    have hf := gameStep_forall₂ hstep hnd
    exact ⟨cardsNodup_step hf hnd, s0, hinit0, forall₂_conserved_comp hcons hf⟩

/-- Claim C8: in every state reachable from initializeGame (over any
permutation of the modelled standard deck) by the transition functions
startRevealRound, revealSelectedCard, processRevealRound and
determineWinner, every player's cards carry pairwise distinct ids (no
duplicated card), the door cards and the multiset of hidden-plus-revealed
hole cards are exactly those dealt at initialization, and a single
transition moves at most one card per player from holeCards onto the end
of revealedHoleCards, so |holeCards| decreases by at most one. -/
theorem reachable_card_conservation (s s2 : GameState)
    (hreach : Reachable s) (hstep : GameStep s s2) :
    CardsNodup s ∧ CardsNodup s2 ∧
    (∃ s0 : GameState,
      (∃ names difficulty deck, deck.Perm createDeck ∧
        initializeGame names difficulty deck = some s0) ∧
      List.Forall₂ Conserved s0.players s.players ∧
      List.Forall₂ Conserved s0.players s2.players) ∧
    List.Forall₂ (fun p q => RevealStep p q ∧
      q.holeCards.length ≤ p.holeCards.length ∧
      p.holeCards.length ≤ q.holeCards.length + 1) s.players s2.players := by
  obtain ⟨hnd, s0, hinit0, hcons⟩ := reachable_invariant hreach
  have hf := gameStep_forall₂ hstep hnd
  refine ⟨hnd, cardsNodup_step hf hnd,
    ⟨s0, hinit0, hcons, forall₂_conserved_comp hcons hf⟩, ?_⟩
  refine List.Forall₂.imp ?_ hf
  intro p q hr
  obtain ⟨h1, h2, mv, hmv, hrev, hperm⟩ := hr
  have hl := hperm.length_eq
  rw [List.length_append] at hl
  exact ⟨⟨h1, h2, mv, hmv, hrev, hperm⟩, by omega, by omega⟩

/-- A default game state (empty table), used only as a `getD` fallback. -/
def emptyGameState : GameState := ⟨[], [], Phase.dealing, 0, [], none, []⟩

/-- A freshly dealt two-player game on the unshuffled standard deck. -/
def demoDealt : GameState :=
  (initializeGame ["a", "b"] Difficulty.normal createDeck).getD emptyGameState

/-- The state after startRevealRound on `demoDealt`. -/
def demoStarted : GameState := (startRevealRound demoDealt).getD emptyGameState

/-- Witness for C8 at a concrete game: the freshly dealt two-player state
and its first startRevealRound transition. -/
theorem reachable_card_conservation_witness :
    CardsNodup demoDealt ∧ CardsNodup demoStarted ∧
    (∃ s0 : GameState,
      (∃ names difficulty deck, deck.Perm createDeck ∧
        initializeGame names difficulty deck = some s0) ∧
      List.Forall₂ Conserved s0.players demoDealt.players ∧
      List.Forall₂ Conserved s0.players demoStarted.players) ∧
    List.Forall₂ (fun p q => RevealStep p q ∧
      q.holeCards.length ≤ p.holeCards.length ∧
      p.holeCards.length ≤ q.holeCards.length + 1) demoDealt.players demoStarted.players :=
  reachable_card_conservation demoDealt demoStarted
    (Reachable.init ["a", "b"] Difficulty.normal createDeck (List.Perm.refl _) (by rfl))
    (GameStep.start (by rfl))

end TenCardStud
